import Mathlib

/-!
Verification of the upbit_bot signal-risk-execution pipeline.

The Python source computes over IEEE floating point (plain Python floats and
pandas/numpy series).  We embed float values as `FVal`: an exact rational
together with the special values `nan`, `inf` (+∞) and `ninf` (−∞), with the
IEEE propagation rules for arithmetic and the IEEE comparison rules
(comparisons involving `nan` are false).  Finite arithmetic is modelled
exactly over ℚ (no rounding error); every control-flow decision and special
value path of the source is preserved.  Plain-Python float division by zero
raises `ZeroDivisionError` (unlike numpy series division, which yields
±inf/nan), so code paths whose divisor is a plain float are embedded as
`Option`, `none` marking the raised exception.
-/

set_option allowUnsafeReducibility true
attribute [local semireducible] Rat.add Rat.mul Rat.inv Rat.sub Rat.div Rat.neg

namespace UpbitBot

/-- An IEEE-style floating point value: `nan`, ±∞, or an exact finite
rational. -/
inductive FVal where
  | nan : FVal
  | inf : FVal
  | ninf : FVal
  | fin (q : ℚ) : FVal
deriving DecidableEq, Repr

namespace FVal

/-- IEEE negation. -/
def neg : FVal → FVal
  | nan => nan
  | inf => ninf
  | ninf => inf
  | fin q => fin (-q)

/-- IEEE addition (exact on finite values). -/
def add : FVal → FVal → FVal
  | nan, _ => nan
  | _, nan => nan
  | fin a, fin b => fin (a + b)
  | inf, ninf => nan
  | ninf, inf => nan
  | inf, _ => inf
  | _, inf => inf
  | ninf, _ => ninf
  | _, ninf => ninf

/-- IEEE subtraction: `a - b = a + (-b)`. -/
def sub (a b : FVal) : FVal := add a (neg b)

/-- IEEE multiplication (exact on finite values); `±∞ · 0 = nan`. -/
def mul : FVal → FVal → FVal
  | nan, _ => nan
  | _, nan => nan
  | fin a, fin b => fin (a * b)
  | inf, fin b => if b = 0 then nan else if 0 < b then inf else ninf
  | fin a, inf => if a = 0 then nan else if 0 < a then inf else ninf
  | ninf, fin b => if b = 0 then nan else if 0 < b then ninf else inf
  | fin a, ninf => if a = 0 then nan else if 0 < a then ninf else inf
  | inf, inf => inf
  | inf, ninf => ninf
  | ninf, inf => ninf
  | ninf, ninf => inf

/-- IEEE division as numpy performs it on float data: finite/0 gives ±∞
(or `nan` for 0/0), finite/±∞ gives 0, ∞/∞ gives `nan`.  The sign of a
zero divisor is taken positive (numpy's `0.0`). -/
def div : FVal → FVal → FVal
  | nan, _ => nan
  | _, nan => nan
  | fin a, fin b =>
      if b = 0 then (if a = 0 then nan else if 0 < a then inf else ninf)
      else fin (a / b)
  | fin _, inf => fin 0
  | fin _, ninf => fin 0
  | inf, fin b => if 0 ≤ b then inf else ninf
  | ninf, fin b => if 0 ≤ b then ninf else inf
  | inf, inf => nan
  | inf, ninf => nan
  | ninf, inf => nan
  | ninf, ninf => nan

/-- IEEE strict less-than; any comparison with `nan` is false. -/
def lt : FVal → FVal → Bool
  | fin a, fin b => decide (a < b)
  | fin _, inf => true
  | ninf, fin _ => true
  | ninf, inf => true
  | _, _ => false

/-- IEEE less-or-equal; any comparison with `nan` is false. -/
def le : FVal → FVal → Bool
  | fin a, fin b => decide (a ≤ b)
  | fin _, inf => true
  | ninf, fin _ => true
  | ninf, inf => true
  | ninf, ninf => true
  | inf, inf => true
  | _, _ => false

/-- IEEE equality test; `nan` is equal to nothing, including itself. -/
def beq : FVal → FVal → Bool
  | fin a, fin b => decide (a = b)
  | inf, inf => true
  | ninf, ninf => true
  | _, _ => false

/-- `a > b` as the source writes it. -/
def gt (a b : FVal) : Bool := lt b a

/-- `a >= b` as the source writes it. -/
def ge (a b : FVal) : Bool := le b a

/-- IEEE absolute value. -/
def fabs : FVal → FVal
  | nan => nan
  | inf => inf
  | ninf => inf
  | fin q => fin |q|

/-- Python's builtin `max(a, b)`: returns `b` exactly when `b > a`
(so it is biased to the first argument on ties and on `nan`). -/
def pymax (a b : FVal) : FVal := if lt a b then b else a

/-- Python's builtin `min(a, b)`: returns `b` exactly when `b < a`. -/
def pymin (a b : FVal) : FVal := if lt b a then b else a

/-- pandas `clip(lower=0)` applied pointwise: `nan` stays `nan`. -/
def clipLower0 : FVal → FVal
  | nan => nan
  | inf => inf
  | ninf => fin 0
  | fin q => fin (max q 0)

/-- pandas `clip(upper=0)` applied pointwise: `nan` stays `nan`. -/
def clipUpper0 : FVal → FVal
  | nan => nan
  | inf => fin 0
  | ninf => ninf
  | fin q => fin (min q 0)

/-- The value is finite (an ordinary float, not `nan`/±∞). -/
def isFin : FVal → Bool
  | fin _ => true
  | _ => false

/-- The value is finite or `nan` (not ±∞). -/
def isFinOrNan : FVal → Bool
  | inf => false
  | ninf => false
  | _ => true

end FVal

open FVal

/-! ## Series combinators (pandas semantics over `List FVal`) -/

/-- Sum of a list of float values, as Python's `sum`/numpy reduction:
left fold of IEEE addition starting from 0. -/
def fvSum (xs : List FVal) : FVal := xs.foldl add (fin 0)

/-- `series.diff()`: first element `nan`, then successive differences. -/
def seriesDiff : List FVal → List FVal
  | [] => []
  | x :: rest => nan :: List.zipWith sub rest (x :: rest)

/-- `series.shift()`: shift forward by one, `nan` in front, last element
dropped. -/
def seriesShift (xs : List FVal) : List FVal :=
  match xs with
  | [] => []
  | _ => nan :: xs.dropLast

/-- The window of the `w` values ending at index `i` (inclusive). -/
def windowSlice (xs : List FVal) (w i : ℕ) : List FVal :=
  (xs.take (i + 1)).drop (i + 1 - w)

/-- `series.rolling(w).mean()` at index `i`: `nan` during the warm-up
(fewer than `w` observations), otherwise the mean of the last `w` values
(any `nan` in the window propagates, as pandas does with the default
`min_periods`). -/
def rollingMeanAt (w : ℕ) (xs : List FVal) (i : ℕ) : FVal :=
  if i + 1 < w then nan else div (fvSum (windowSlice xs w i)) (fin w)

/-- `series.rolling(w).mean()` as a whole series. -/
def rollingMean (w : ℕ) (xs : List FVal) : List FVal :=
  (List.range xs.length).map (rollingMeanAt w xs)

/-- The decay factor `1 - α` of `ewm(span=s)`: `α = 2/(s+1)`. -/
def ewmDecay (span : ℕ) : ℚ := ((span : ℚ) - 1) / ((span : ℚ) + 1)

/-- Numerator accumulation of the ewm mean: `nan` observations are
skipped, every other observation `j` contributes with weight
`(1-α)^(i-j)`. -/
def ewmNumStep (span i : ℕ) (xs : List FVal) (acc : FVal) (j : ℕ) : FVal :=
  match xs.getD j nan with
  | nan => acc
  | v => add acc (mul (fin (ewmDecay span ^ (i - j))) v)

/-- Weight accumulation of the ewm mean: the weights of the non-`nan`
observations. -/
def ewmDenStep (span i : ℕ) (xs : List FVal) (acc : ℚ) (j : ℕ) : ℚ :=
  match xs.getD j nan with
  | nan => acc
  | _ => acc + ewmDecay span ^ (i - j)

/-- `series.ewm(span).mean()` at index `i` (pandas defaults
`adjust=True`, `ignore_na=False`): the weighted average of the non-`nan`
observations at or before `i`, the observation `j` weighted
`(1-α)^(i-j)`; `nan` when no observation is available. -/
def ewmAt (span : ℕ) (xs : List FVal) (i : ℕ) : FVal :=
  let num := (List.range (i + 1)).foldl (ewmNumStep span i xs) (fin 0)
  let den := (List.range (i + 1)).foldl (ewmDenStep span i xs) (0 : ℚ)
  if den = 0 then nan else div num (fin den)

/-- `series.ewm(span).mean()` as a whole series. -/
def ewmMean (span : ℕ) (xs : List FVal) : List FVal :=
  (List.range xs.length).map (ewmAt span xs)

/-- `series.fillna(method="ffill")`: carry the most recent non-`nan`
value forward (leading `nan`s stay). -/
def ffill (xs : List FVal) : List FVal :=
  go nan xs
where
  go (carry : FVal) : List FVal → List FVal
    | [] => []
    | x :: rest =>
        match x with
        | nan => carry :: go carry rest
        | v => v :: go v rest

/-- `series.fillna(0)`. -/
def fillnaZero (xs : List FVal) : List FVal :=
  xs.map fun v => match v with | nan => fin 0 | v => v

/-- `series.iloc[-k]` (for `k ≥ 1`): the `k`-th element from the end;
out-of-range access is modelled as `nan` (the source only uses it after
its own length guards). -/
def ilocNeg (xs : List FVal) (k : ℕ) : FVal :=
  if k ≤ xs.length then xs.getD (xs.length - k) nan else nan

/-- Row-wise `max(axis=1)` of two values with pandas' default `skipna`:
`nan` entries are ignored rather than propagated. -/
def nanMax2 (a b : FVal) : FVal :=
  match a, b with
  | nan, b => b
  | a, nan => a
  | a, b => if lt a b then b else a

/-- Three-column zip used for the true-range table. -/
def zipWith3 (g : FVal → FVal → FVal → FVal) :
    List FVal → List FVal → List FVal → List FVal
  | a :: as, b :: bs, c :: cs => g a b c :: zipWith3 g as bs cs
  | _, _, _ => []

/-! ## Strategy engine (`upbit_bot/strategy/engine.py`) -/

/-- The candle DataFrame columns the strategy engine reads (`open` and the
timestamp are never touched by the engine and are omitted). -/
structure Frame where
  high : List FVal
  low : List FVal
  close : List FVal
  volume : List FVal

/-- All columns of the frame have the same number of rows, as a pandas
DataFrame guarantees by construction. -/
def Frame.wf (f : Frame) : Prop :=
  f.high.length = f.close.length ∧ f.low.length = f.close.length ∧
    f.volume.length = f.close.length

instance (f : Frame) : Decidable f.wf := by
  unfold Frame.wf; infer_instance

/-- `StrategyEngine._rsi`: `delta = close.diff()`;
`gain = delta.clip(lower=0).rolling(window).mean()`;
`loss = -delta.clip(upper=0).rolling(window).mean()`;
`rs = gain / loss.replace(0, inf)`; result `100 - 100/(1+rs)`. -/
def rsiSeries (close : List FVal) (window : ℕ) : List FVal :=
  let delta := seriesDiff close
  let gain := rollingMean window (delta.map clipLower0)
  let loss := (rollingMean window (delta.map clipUpper0)).map neg
  let lossRep := loss.map fun v => if v = fin 0 then inf else v
  let rs := List.zipWith div gain lossRep
  rs.map fun r => sub (fin 100) (div (fin 100) (add (fin 1) r))

/-- The true-range table of `StrategyEngine._atr`:
`max(high-low, |high-prev_close|, |low-prev_close|)` row-wise, with
pandas' `skipna` max over the three columns. -/
def trSeries (f : Frame) : List FVal :=
  let prevClose := seriesShift f.close
  let highLow := List.zipWith sub f.high f.low
  let highClose := (List.zipWith sub f.high prevClose).map fabs
  let lowClose := (List.zipWith sub f.low prevClose).map fabs
  zipWith3 (fun a b c => nanMax2 (nanMax2 a b) c) highLow highClose lowClose

/-- `StrategyEngine._atr`: rolling mean of the true range. -/
def atrSeries (f : Frame) (window : ℕ := 14) : List FVal :=
  rollingMean window (trSeries f)

/-- The MACD line of `StrategyEngine._macd`: `ewm(12) - ewm(26)` of the
close series. -/
def macdLine (close : List FVal) : List FVal :=
  List.zipWith sub (ewmMean 12 close) (ewmMean 26 close)

/-- The MACD signal line: `ewm(9)` of the MACD line. -/
def macdSignal (close : List FVal) : List FVal :=
  ewmMean 9 (macdLine close)

/-- The MACD histogram: MACD line minus signal line. -/
def macdHist (close : List FVal) : List FVal :=
  List.zipWith sub (macdLine close) (macdSignal close)

/-- `score_market`'s `trend_score`:
`(ema_fast.iloc[-1] - ema_slow.iloc[-1]) / close.iloc[-1]`, the ema spans
being the engine's `indicator_windows` 21 and 55. -/
def trend_score (f : Frame) : FVal :=
  div (sub (ilocNeg (ewmMean 21 f.close) 1) (ilocNeg (ewmMean 55 f.close) 1))
    (ilocNeg f.close 1)

/-- `score_market`'s `momentum_score`: `close.iloc[-1]/close.iloc[-10] - 1`. -/
def momentum_score (f : Frame) : FVal :=
  sub (div (ilocNeg f.close 1) (ilocNeg f.close 10)) (fin 1)

/-- The filled volume series of `score_market`:
`volume.fillna(method="ffill").fillna(0)`. -/
def filledVolume (f : Frame) : List FVal := fillnaZero (ffill f.volume)

/-- `score_market`'s `volume_score`:
`volume.iloc[-1] / (volume.rolling(30).mean().iloc[-1] or 1) - 1`; Python's
`or` replaces only a (falsy) zero mean by 1. -/
def volume_score (f : Frame) : FVal :=
  let volume := filledVolume f
  let volMeanRaw := ilocNeg (rollingMean 30 volume) 1
  let volMeanOr1 := if volMeanRaw = fin 0 then fin 1 else volMeanRaw
  sub (div (ilocNeg volume 1) volMeanOr1) (fin 1)

/-- `score_market`'s `quality` gate: the Python int
`1 if atr.iloc[-1] > 0 else 0` (false for a `nan` ATR). -/
def quality (f : Frame) : ℚ :=
  if lt (fin 0) (ilocNeg (atrSeries f) 1) then 1 else 0

/-- `score_market`'s `macd_bias`: `hist.iloc[-1]`. -/
def macd_bias (f : Frame) : FVal := ilocNeg (macdHist f.close) 1

/-- `score_market`'s `rsi_bias`: `(rsi.iloc[-1] - 50) / 50`, window 14. -/
def rsi_bias (f : Frame) : FVal :=
  div (sub (ilocNeg (rsiSeries f.close 14) 1) (fin 50)) (fin 50)

/-- The left-associated weighted sum of `score_market`:
`trend*0.35 + momentum*0.25 + macd_bias*0.2 + rsi_bias*0.1 + volume*0.1`. -/
def weighted_score (f : Frame) : FVal :=
  add
    (add
      (add
        (add (mul (trend_score f) (fin (35 / 100))) (mul (momentum_score f) (fin (25 / 100))))
        (mul (macd_bias f) (fin (2 / 10))))
      (mul (rsi_bias f) (fin (1 / 10))))
    (mul (volume_score f) (fin (1 / 10)))

/-- `StrategyEngine.score_market`: 0 with fewer than 60 candles, else the
weighted sum multiplied by the quality gate. -/
def score_market (f : Frame) : FVal :=
  if f.close.length < 60 then fin 0
  else mul (weighted_score f) (fin (quality f))

/-- The `Signal` dataclass. -/
structure Signal where
  market : String
  side : String
  score : FVal
  entry : FVal
  stop : FVal
  take_profit : FVal
  trailing : FVal
deriving DecidableEq, Repr

/-- The `PositionSnapshot` dataclass. -/
structure PositionSnapshot where
  market : String
  side : String
  entry_price : FVal
  volume : FVal
  stop : FVal
  take_profit : FVal
  trailing : FVal
deriving DecidableEq, Repr

/-- `StrategyEngine.generate_entry_signal`.  `score == 0` is the IEEE
equality test (false for a `nan` score), `score > 0` the IEEE strict
comparison; `max`/`min` are Python's builtins. -/
def generate_entry_signal (market : String) (f : Frame) : Option Signal :=
  let score := score_market f
  if beq score (fin 0) then none
  else
    let close := ilocNeg f.close 1
    let atr := ilocNeg (atrSeries f) 1
    if lt (fin 0) score then
      some
        { market := market
          side := "buy"
          score := score
          entry := close
          stop := pymax (sub close (mul atr (fin 2))) (mul close (fin (97 / 100)))
          take_profit := add close (mul atr (fin 3))
          trailing := mul atr (fin (3 / 2)) }
    else
      some
        { market := market
          side := "sell"
          score := score
          entry := close
          stop := pymin (add close (mul atr (fin 2))) (mul close (fin (103 / 100)))
          take_profit := sub close (mul atr (fin 3))
          trailing := mul atr (fin (3 / 2)) }

/-- `StrategyEngine.should_exit`, with the source's evaluation order of
the four exit conditions for each side. -/
def should_exit (f : Frame) (position : PositionSnapshot) : Bool :=
  let close := ilocNeg f.close 1
  let atr := ilocNeg (atrSeries f) 1
  let hist := ilocNeg (macdHist f.close) 1
  let rsi := ilocNeg (rsiSeries f.close 14) 1
  if position.side = "buy" then
    let trailingStop := pymax position.stop (sub close position.trailing)
    if le close trailingStop || le close position.stop then true
    else if ge close position.take_profit then true
    else if lt hist (fin 0) && lt rsi (fin 45) then true
    else if gt atr (fin 0) && lt (div (sub close position.entry_price) atr) (fin (-1)) then true
    else false
  else
    let trailingStop := pymin position.stop (add close position.trailing)
    if ge close trailingStop || ge close position.stop then true
    else if le close position.take_profit then true
    else if gt hist (fin 0) && gt rsi (fin 55) then true
    else if gt atr (fin 0) && lt (div (sub position.entry_price close) atr) (fin (-1)) then true
    else false

/-! ## Risk engine (`upbit_bot/risk/engine.py`)

All inputs of the risk engine are plain Python floats; along the paths the
claims exercise they are finite, so the engine is embedded over ℚ, with
`Option` marking the one statement that can raise (`/ entry_price` with a
zero entry price raises `ZeroDivisionError`). -/

/-- The `RiskLimits` dataclass. -/
structure RiskLimits where
  per_trade_risk_pct : ℚ
  daily_loss_limit_pct : ℚ
  max_position_pct : ℚ
  max_total_exposure_pct : ℚ
  max_positions : ℕ
deriving DecidableEq, Repr

/-- The dataclass defaults; the bot never overrides them. -/
def RiskLimits.default : RiskLimits :=
  { per_trade_risk_pct := 1 / 100
    daily_loss_limit_pct := 3 / 100
    max_position_pct := 1 / 10
    max_total_exposure_pct := 1
    max_positions := 10 }

/-- `RiskEngine.position_size`.  `equity` is the value the injected
equity provider returns at call time.  `none` is the
`ZeroDivisionError` Python raises computing `max_size` when
`entry_price == 0` (only reachable when `distance != 0`, since the zero
distance case returns first). -/
def position_size (L : RiskLimits) (equity entry_price stop_price : ℚ) : Option ℚ :=
  let risk_amount := equity * L.per_trade_risk_pct
  let distance := |entry_price - stop_price|
  if distance = 0 then some 0
  else if entry_price = 0 then none
  else
    let size := risk_amount / distance
    let max_size := equity * L.max_position_pct / entry_price
    some (min size max_size)

/-- `RiskEngine.register_pnl`: the state update
`daily_loss += min(realized, 0.0)` as a function of the accumulator. -/
def register_pnl (daily_loss realized : ℚ) : ℚ := daily_loss + min realized 0

/-- `RiskEngine.reset_daily`: the accumulator value it installs. -/
def reset_daily : ℚ := 0

/-- The daily-loss accumulator after `reset_daily` followed by a sequence
of `register_pnl` calls. -/
def accumulate_pnl (realized : List ℚ) : ℚ := realized.foldl register_pnl reset_daily

/-- `RiskEngine.hit_daily_limit`. -/
def hit_daily_limit (L : RiskLimits) (daily_loss equity : ℚ) : Bool :=
  decide (|daily_loss| ≥ equity * L.daily_loss_limit_pct)

/-! ## Execution engine (`upbit_bot/execution/engine.py`) -/

/-- `ExecutionEngine._tick_size`: the banded tick lookup table. -/
def tick_size (price : ℚ) : ℚ :=
  if price < 10 then 1 / 100
  else if price < 100 then 1 / 10
  else if price < 1000 then 1
  else if price < 10000 then 5
  else if price < 50000 then 10
  else if price < 100000 then 50
  else if price < 500000 then 100
  else if price < 1000000 then 500
  else if price < 2000000 then 1000
  else 2000

/-- Python's builtin `round` on a finite value: round to the nearest
integer, ties to the even integer (the fractional part `x - ⌊x⌋`
decides). -/
def pyRound (x : ℚ) : ℤ :=
  if x - ⌊x⌋ < 1 / 2 then ⌊x⌋
  else if 1 / 2 < x - ⌊x⌋ then ⌊x⌋ + 1
  else if ⌊x⌋ % 2 = 0 then ⌊x⌋ else ⌊x⌋ + 1

/-- `ExecutionEngine.align_price`: `round(price / tick) * tick`. -/
def align_price (price : ℚ) : ℚ :=
  let tick := tick_size price
  (pyRound (price / tick) : ℚ) * tick

/-- The volume of `ExecutionEngine.build_order` after its first two
stages (risk-driven sizing, then the minimum-notional raise), before the
cash clamp.  `equity` is the risk engine's equity provider value,
`minRaw` the `min_total` field of the order-chance response and `fee`
the side's fee.  `none` marks a raised exception: `position_size`
raising, or `min_total / price` with a zero price. -/
def build_order_vol1 (L : RiskLimits) (equity entry stop minRaw fee : ℚ) :
    Option ℚ := do
  let min_total := max 30000 minRaw
  let price := align_price entry
  let volume ← position_size L equity price stop
  let order_value := price * volume * (1 + fee)
  if order_value < min_total ∧ price = 0 then none
  else some (if order_value < min_total then min_total / price else volume)

/-- `ExecutionEngine.build_order`: the first two stages, then the cash
clamp (`volume = cash / (price * (1 + fee))` whenever the order value
exceeds the available cash), then the floor at 0.  `none` again marks a
raised exception (the clamp's division with `price * (1 + fee) == 0`).
The source recomputes `order_value` only inside the minimum-notional
branch; recomputing it unconditionally from the stage-two volume is the
same value on both paths. -/
def build_order (L : RiskLimits) (equity entry stop cash minRaw fee : ℚ) :
    Option (ℚ × ℚ) := do
  let price := align_price entry
  let volume1 ← build_order_vol1 L equity entry stop minRaw fee
  let order_value1 := price * volume1 * (1 + fee)
  if order_value1 > cash ∧ price * (1 + fee) = 0 then none
  else
    let volume2 := if order_value1 > cash then cash / (price * (1 + fee)) else volume1
    some (price, max volume2 0)

/-! ## Float-valued variants used by the orchestrator

Inside the trading cycle the execution engine is fed values taken from
candle frames (`signal.entry`, `signal.stop`, the running cash), which
are floats that may carry special values, so the cycle model uses `FVal`
variants of the same source functions.  `none` again marks a raised
exception: Python's `round` raises on `nan`/±∞ and plain float division
raises on a zero divisor. -/

/-- `ExecutionEngine.align_price` on a float: `_tick_size` compares the
price against the band bounds (every comparison with `nan` is false, so
`nan`/±∞ fall through to the 2000 band) and `round` then raises
`ValueError`/`OverflowError` on a non-finite price. -/
def alignPriceF : FVal → Option FVal
  | fin q => some (fin (align_price q))
  | _ => none

/-- `RiskEngine.position_size` on float entry/stop. -/
def positionSizeF (L : RiskLimits) (equity : ℚ) (entry_price stop_price : FVal) :
    Option FVal :=
  let risk_amount := fin (equity * L.per_trade_risk_pct)
  let distance := fabs (sub entry_price stop_price)
  if beq distance (fin 0) then some (fin 0)
  else if beq entry_price (fin 0) then none
  else
    some (pymin (div risk_amount distance)
      (div (fin (equity * L.max_position_pct)) entry_price))

/-- `ExecutionEngine.build_order` on float inputs (`minRaw` and `fee`
are parsed from the order-chance JSON and are finite). -/
def buildOrderF (L : RiskLimits) (equity : ℚ) (entry stop cash : FVal)
    (minRaw fee : ℚ) : Option (FVal × FVal) := do
  let min_total := pymax (fin 30000) (fin minRaw)
  let price ← alignPriceF entry
  let volume ← positionSizeF L equity price stop
  let fee1 := add (fin 1) (fin fee)
  let order_value := mul (mul price volume) fee1
  if lt order_value min_total && beq price (fin 0) then none
  else
    let volume1 := if lt order_value min_total then div min_total price else volume
    let order_value1 := mul (mul price volume1) fee1
    if gt order_value1 cash && beq (mul price fee1) (fin 0) then none
    else
      let volume2 := if gt order_value1 cash then div cash (mul price fee1) else volume1
      some (price, pymax volume2 (fin 0))

/-- Python dict lookup on an insertion-ordered association list. -/
def dictGet? {α : Type} (m : List (String × α)) (k : String) : Option α :=
  (m.find? fun p => p.1 == k).map (·.2)

/-- Python dict assignment: overwrite in place if the key exists,
otherwise append. -/
def dictInsert {α : Type} (m : List (String × α)) (k : String) (v : α) :
    List (String × α) :=
  if m.any (fun p => p.1 == k) then
    m.map fun p => if p.1 == k then (k, v) else p
  else m ++ [(k, v)]

/-- `RiskEngine.can_open_new_position`; `open_positions` is the
orchestrator's `open_weights` dict (market → float weight) and `equity`
the provider's value. -/
def can_open_new_position (L : RiskLimits) (equity : ℚ) (market : String)
    (open_positions : List (String × FVal)) : Bool :=
  if equity ≤ 0 then false
  else if L.max_positions ≤ open_positions.length then false
  else if ge (fvSum (open_positions.map (·.2))) (fin L.max_total_exposure_pct) then false
  else if (dictGet? open_positions market).isSome
      && ge ((dictGet? open_positions market).getD (fin 0)) (fin L.max_position_pct) then false
  else true

/-! ## Orchestrator (`upbit_bot/bot.py`) -/

/-- One row of the account-balances response, fields already parsed to
numbers as the source's `float(...)` calls do. -/
structure Balance where
  currency : String
  balance : ℚ
  locked : ℚ
  avg_buy_price : ℚ
deriving DecidableEq, Repr

/-- The orchestrator's `PortfolioState` right after a refresh. -/
structure PortfolioState where
  equity : ℚ
  cash : ℚ
  positions : List (String × PositionSnapshot)
deriving DecidableEq, Repr

/-- The balances loop of `AutoTradingBot.refresh_portfolio`: accumulates
KRW cash and builds the `holding_markets` and `avg_price` dicts. -/
def refreshStep (acc : ℚ × List (String × ℚ) × List (String × ℚ)) (bal : Balance) :
    ℚ × List (String × ℚ) × List (String × ℚ) :=
  let total_qty := bal.balance + bal.locked
  if bal.currency = "KRW" then (acc.1 + total_qty, acc.2.1, acc.2.2)
  else
    let market := "KRW-" ++ bal.currency
    (acc.1, dictInsert acc.2.1 market total_qty, dictInsert acc.2.2 market bal.avg_buy_price)

/-- `(krw, holding_markets, avg_price)` after the balances loop. -/
def balancesFold (balances : List Balance) : ℚ × List (String × ℚ) × List (String × ℚ) :=
  balances.foldl refreshStep (0, [], [])

/-- The mark price `refresh_portfolio` uses for one holding: the ticker's
trade price when the ticker response has the market, otherwise the
average buy price (0 if absent). -/
def markPrice (tickers : String → Option ℚ) (avg : List (String × ℚ))
    (market : String) : ℚ :=
  match tickers market with
  | some p => p
  | none => (dictGet? avg market).getD 0

/-- The `PositionSnapshot` `refresh_portfolio` rebuilds for one holding
`(market, quantity)`: side fixed to `"buy"`, entry at the average buy
price (falling back to the mark price), stop/take-profit/trailing at
0.97/1.05/0.02 times the mark price. -/
def reconstructedPosition (tickers : String → Option ℚ) (avg : List (String × ℚ))
    (mq : String × ℚ) : String × PositionSnapshot :=
  let price := markPrice tickers avg mq.1
  (mq.1,
   { market := mq.1
     side := "buy"
     entry_price := fin ((dictGet? avg mq.1).getD price)
     volume := fin mq.2
     stop := fin (price * (97 / 100))
     take_profit := fin (price * (105 / 100))
     trailing := fin (price * (2 / 100)) })

/-- The holdings loop of `refresh_portfolio`: accumulate equity and
build the reconstructed positions. -/
def holdingsStep (tickers : String → Option ℚ) (avg : List (String × ℚ))
    (acc : ℚ × List (String × PositionSnapshot)) (mq : String × ℚ) :
    ℚ × List (String × PositionSnapshot) :=
  (acc.1 + markPrice tickers avg mq.1 * mq.2,
   acc.2 ++ [reconstructedPosition tickers avg mq])

/-- `AutoTradingBot.refresh_portfolio` as a function of the balances
response and the tickers response. -/
def refresh_portfolio (balances : List Balance) (tickers : String → Option ℚ) :
    PortfolioState :=
  let (krw, hold, avg) := balancesFold balances
  let (equity, positions) := hold.foldl (holdingsStep tickers avg) (krw, [])
  { equity := equity, cash := krw, positions := positions }

/-- `PortfolioState.open_weights`. -/
def open_weights (st : PortfolioState) : List (String × FVal) :=
  if st.equity = 0 then []
  else st.positions.map fun p =>
    (p.1, div (mul p.2.entry_price p.2.volume) (fin st.equity))

/-- One submitted order (market, side, price, volume). -/
structure Order where
  market : String
  side : String
  price : FVal
  volume : FVal
deriving DecidableEq, Repr

/-- The collaborator responses one cycle consumes: account balances,
tickers, the liquidity-filtered universe, per-market 5-minute candle
frames, and per-market order-chance data (`min_total`, bid fee, ask
fee). -/
structure CycleEnv where
  balances : List Balance
  tickers : String → Option ℚ
  universeMarkets : List String
  candles : String → Option Frame
  chanceMin : String → ℚ
  chanceBidFee : String → ℚ
  chanceAskFee : String → ℚ

/-- `AutoTradingBot._generate_signals`: run the strategy on each universe
market's frame, keeping the non-`None` signals in universe order. -/
def generateSignals (env : CycleEnv) : List Signal :=
  env.universeMarkets.filterMap fun market =>
    (env.candles market).bind fun frame => generate_entry_signal market frame

/-- `AutoTradingBot._exit_checks` over the open positions: returns the
submitted exit orders, the surviving positions, and whether the loop
aborted with an exception (`align_price` on a non-finite close).  An
exited market's position is popped; on abort the current and remaining
positions are untouched and nothing further runs in the cycle. -/
def exitChecksGo (env : CycleEnv) :
    List (String × PositionSnapshot) →
      List Order × List (String × PositionSnapshot) × Bool
  | [] => ([], [], false)
  | e :: rest =>
    match env.candles e.1 with
    | none =>
        let r := exitChecksGo env rest
        (r.1, e :: r.2.1, r.2.2)
    | some frame =>
        if frame.close.isEmpty then
          let r := exitChecksGo env rest
          (r.1, e :: r.2.1, r.2.2)
        else if should_exit frame e.2 then
          match alignPriceF (ilocNeg frame.close 1) with
          | none => ([], e :: rest, true)
          | some price =>
              let r := exitChecksGo env rest
              ({ market := e.1
                 side := if e.2.side = "buy" then "sell" else "buy"
                 price := price
                 volume := e.2.volume } :: r.1, r.2.1, r.2.2)
        else
          let r := exitChecksGo env rest
          (r.1, e :: r.2.1, r.2.2)

/-- `sorted(signals.values(), key=lambda s: abs(s.score), reverse=True)`:
a stable descending sort on `abs(score)`. -/
def sortSignals (signals : List Signal) : List Signal :=
  signals.mergeSort fun a b => !(lt (fabs a.score) (fabs b.score))

/-- The signal loop of `AutoTradingBot._enter_positions`: processes the
sorted signals sequentially, threading the open-weights dict, the
running cash and the positions dict; returns the submitted entry orders,
final cash, final positions, and the abort flag (an exception raised by
`build_order`). -/
def enterGo (env : CycleEnv) (equity : ℚ) :
    List Signal → List (String × FVal) → FVal → List (String × PositionSnapshot) →
      List Order × FVal × List (String × PositionSnapshot) × Bool
  | [], _, cash, positions => ([], cash, positions, false)
  | sig :: rest, weights, cash, positions =>
    if !(can_open_new_position RiskLimits.default equity sig.market weights) then
      enterGo env equity rest weights cash positions
    else
      let fee := if sig.side = "buy" then env.chanceBidFee sig.market else env.chanceAskFee sig.market
      match buildOrderF RiskLimits.default equity sig.entry sig.stop cash
          (env.chanceMin sig.market) fee with
      | none => ([], cash, positions, true)
      | some (price, volume) =>
        if le volume (fin 0) then enterGo env equity rest weights cash positions
        else
          let weight := if equity = 0 then fin 0 else div (mul price volume) (fin equity)
          let weights1 := dictInsert weights sig.market
            (add ((dictGet? weights sig.market).getD (fin 0)) weight)
          let cash1 := sub cash (mul price volume)
          let positions1 := dictInsert positions sig.market
            { market := sig.market
              side := sig.side
              entry_price := price
              volume := volume
              stop := sig.stop
              take_profit := sig.take_profit
              trailing := sig.trailing }
          let r := enterGo env equity rest weights1 cash1 positions1
          ({ market := sig.market, side := sig.side, price := price, volume := volume } :: r.1,
           r.2.1, r.2.2.1, r.2.2.2)

/-- `AutoTradingBot._enter_positions`: returns immediately with no
submissions when the daily loss limit is hit, otherwise runs the signal
loop on the signals sorted by descending `abs(score)`. -/
def enterPositions (env : CycleEnv) (daily_loss : ℚ) (st : PortfolioState)
    (signals : List Signal) :
    List Order × FVal × List (String × PositionSnapshot) × Bool :=
  if hit_daily_limit RiskLimits.default daily_loss st.equity then
    ([], fin st.cash, st.positions, false)
  else
    enterGo env st.equity (sortSignals signals) (open_weights st) (fin st.cash) st.positions

/-- The observable outcome of one `run_cycle` call. -/
structure CycleResult where
  refreshed : PortfolioState
  exitOrders : List Order
  entryOrders : List Order
  finalCash : FVal
  finalPositions : List (String × PositionSnapshot)
  aborted : Bool
deriving Repr

/-- `AutoTradingBot.run_cycle`: refresh the portfolio, generate signals,
run the exit checks, then the entry loop (skipped when an exit raised,
since the exception propagates out of the cycle).  `daily_loss` is the
risk engine's accumulator at cycle start. -/
def run_cycle (env : CycleEnv) (daily_loss : ℚ) : CycleResult :=
  let st := refresh_portfolio env.balances env.tickers
  let signals := generateSignals env
  let (exitOrders, positions1, exitAborted) := exitChecksGo env st.positions
  if exitAborted then
    { refreshed := st
      exitOrders := exitOrders
      entryOrders := []
      finalCash := fin st.cash
      finalPositions := positions1
      aborted := true }
  else
    let st1 : PortfolioState := { st with positions := positions1 }
    let (entryOrders, cash2, positions2, entryAborted) :=
      enterPositions env daily_loss st1 signals
    { refreshed := st
      exitOrders := exitOrders
      entryOrders := entryOrders
      finalCash := cash2
      finalPositions := positions2
      aborted := entryAborted }

/-! ## Concrete inputs used by the claim theorems and witnesses -/

/-- A monotonically increasing close series (length 15 ≥ the RSI window
14): every delta is a gain, so the rolling average loss is 0 at the last
index, past the warm-up window. -/
def monoClose : List FVal := (List.range 15).map fun i => fin i

/-- A 60-candle close column, all values finite: 1 everywhere except a
single 0 at index 50 (which is `close.iloc[-10]`). -/
def cxClose : List FVal := (List.range 60).map fun i => if i = 50 then fin 0 else fin 1

/-- High/low columns rigged so that every true range in the last
14-candle window is 0 (`high = low = previous close` there), making the
ATR exactly 0. -/
def cxHL : List FVal := (List.range 60).map fun i => if i = 51 then fin 0 else fin 1

/-- A constant volume column. -/
def cxVol : List FVal := List.replicate 60 (fin 1)

/-- The adversarial frame for the signal-ordering claim: finite values
only, last close 1 > 0, ATR 0, and `close.iloc[-10] = 0` so the momentum
term divides by zero. -/
def cxFrame : Frame := ⟨cxHL, cxHL, cxClose, cxVol⟩

/-- The signal `generate_entry_signal` emits on `cxFrame`: the momentum
inf makes the weighted sum inf, the 0 quality gate turns the score into
`nan`, which fails both the `score == 0` guard and the `score > 0` test,
so a "sell" signal with `stop = entry = take_profit = 1` is returned. -/
def cxSignal : Signal :=
  { market := "KRW-BTC", side := "sell", score := nan, entry := fin 1
    stop := fin 1, take_profit := fin 1, trailing := fin 0 }

/-- A benign 60-candle frame (constant close 100, high 101, low 100,
volume 1): ATR 1, RSI bias −1, all other score terms 0, score −0.1,
hence a well-formed short signal.  Used to instantiate the amended
signal-ordering theorem. -/
def wFrame : Frame :=
  ⟨List.replicate 60 (fin 101), List.replicate 60 (fin 100),
   List.replicate 60 (fin 100), List.replicate 60 (fin 1)⟩

/-- The signal `generate_entry_signal` emits on `wFrame`. -/
def wSignal : Signal :=
  { market := "KRW-A", side := "sell", score := fin (-(1 / 10)), entry := fin 100
    stop := fin 102, take_profit := fin 97, trailing := fin (3 / 2) }

/-- A one-row frame whose close sits below the position's stop. -/
def c8Frame : Frame := ⟨[fin 2], [fin 1], [fin 1], [fin 1]⟩

/-- A long position with stop above the frame's close. -/
def c8Pos : PositionSnapshot :=
  { market := "KRW-BTC", side := "buy", entry_price := fin 3, volume := fin 1
    stop := fin 2, take_profit := fin 4, trailing := fin 1 }

/-- An environment with an empty account and no markets, used to
instantiate the daily-limit theorem. -/
def env0 : CycleEnv :=
  { balances := []
    tickers := fun _ => none
    universeMarkets := []
    candles := fun _ => none
    chanceMin := fun _ => 0
    chanceBidFee := fun _ => 0
    chanceAskFee := fun _ => 0 }

/-! ## Claim theorems -/

/-- C1.  The spec requires RSI to saturate at 100 when the rolling
average loss is zero; `_rsi` instead replaces the zero loss average with
+∞, so `rs = gain / inf = 0` and the result is `100 - 100/(1+0) = 0`.
On a monotonically increasing close series of length 15 with window 14,
at the last index (past the warm-up window) the rolling loss average is
exactly 0, yet the computed RSI is 0, not 100. -/
theorem c1_rsi_zero_loss_yields_zero :
    ilocNeg ((rollingMean 14 ((seriesDiff monoClose).map clipUpper0)).map neg) 1 = fin 0 ∧
    ilocNeg (rsiSeries monoClose 14) 1 = fin 0 ∧
    ilocNeg (rsiSeries monoClose 14) 1 ≠ fin 100 :=
  ⟨by decide, by decide, by decide⟩

/-- C5, counterexample.  `position_size` can return a negative volume:
with equity 100, entry −1 and stop 1 the exposure cap
`equity * max_position_pct / entry` is −10, and `min(size, max_size)`
returns it. -/
theorem c5_counterexample :
    position_size RiskLimits.default 100 (-1) 1 = some (-10) ∧ ((-10 : ℚ) < 0) :=
  ⟨by decide, by decide⟩

/-- C5, amended.  `position_size` returns exactly 0 whenever
`entry == stop` (any equity), and it never returns a negative value
provided the provider's equity is non-negative and the entry price is
positive. -/
theorem c5_position_size_nonneg (equity entry stop v : ℚ) :
    (entry = stop → position_size RiskLimits.default equity entry stop = some 0) ∧
    (0 ≤ equity → 0 < entry →
      position_size RiskLimits.default equity entry stop = some v → 0 ≤ v) := by
  constructor
  · intro h
    subst h
    simp [position_size]
  · intro heq hentry hv
    by_cases hd : |entry - stop| = 0
    · simp [position_size, hd] at hv
      exact hv ▸ le_refl 0
    · simp [position_size, hd, ne_of_gt hentry] at hv
      subst hv
      refine le_min (div_nonneg ?_ (abs_nonneg _)) (div_nonneg ?_ (le_of_lt hentry))
      · exact mul_nonneg heq (by norm_num [RiskLimits.default])
      · exact mul_nonneg heq (by norm_num [RiskLimits.default])

/-- C5, witness: the amended theorem applied at equity 50 with
entry = stop = 2, and at equity 50, entry 2, stop 1 (volume 1/2). -/
theorem c5_witness :
    position_size RiskLimits.default 50 2 2 = some 0 ∧ (0 : ℚ) ≤ 1 / 2 :=
  ⟨(c5_position_size_nonneg 50 2 2 0).1 rfl,
   (c5_position_size_nonneg 50 2 1 (1 / 2)).2 (by norm_num) (by norm_num) (by decide)⟩

/-- Helper for C9: a `register_pnl` fold never increases the
accumulator. -/
theorem foldl_register_pnl_le (l : List ℚ) : ∀ a : ℚ, l.foldl register_pnl a ≤ a := by
  induction l with
  | nil => intro a; exact le_refl a
  | cons x xs ih =>
      intro a
      calc (x :: xs).foldl register_pnl a = xs.foldl register_pnl (register_pnl a x) := rfl
        _ ≤ register_pnl a x := ih _
        _ ≤ a := add_le_of_nonpos_right (min_le_right x 0)

/-- C9.  The daily-loss accumulator is non-increasing under
`register_pnl`; a non-negative realized P&L leaves it unchanged; a
negative realized P&L decreases it by exactly that amount; and starting
from `reset_daily` any sequence of `register_pnl` calls leaves it ≤ 0. -/
theorem c9_daily_loss_accumulator (daily_loss realized : ℚ) (pnls : List ℚ) :
    register_pnl daily_loss realized ≤ daily_loss ∧
    (0 ≤ realized → register_pnl daily_loss realized = daily_loss) ∧
    (realized < 0 → register_pnl daily_loss realized = daily_loss + realized) ∧
    accumulate_pnl pnls ≤ 0 := by
  refine ⟨add_le_of_nonpos_right (min_le_right realized 0), ?_, ?_, ?_⟩
  · intro h
    unfold register_pnl
    rw [min_eq_right h, add_zero]
  · intro h
    unfold register_pnl
    rw [min_eq_left (le_of_lt h)]
  · exact foldl_register_pnl_le pnls reset_daily

/-- C9, witness: the accumulator theorem applied at concrete values. -/
theorem c9_witness :
    register_pnl 0 (-5) ≤ 0 ∧ register_pnl (-5) 3 = -5 ∧
    register_pnl (-5) (-2) = -5 + -2 ∧ accumulate_pnl [3, -5] ≤ 0 :=
  ⟨(c9_daily_loss_accumulator 0 (-5) []).1,
   (c9_daily_loss_accumulator (-5) 3 []).2.1 (by norm_num),
   (c9_daily_loss_accumulator (-5) (-2) []).2.2.1 (by norm_num),
   (c9_daily_loss_accumulator 0 0 [3, -5]).2.2.2⟩

/-- C3, counterexample.  The minimum-notional stage sets
`volume = min_total / price`, so the resulting fee-inclusive order value
is `min_total * (1 + fee)`, not the minimum notional itself: with
equity 10000, entry 100, stop 99, abundant cash and fee 0.005 the risk
stage gives volume 10 (value 1005 < 30000), the raise gives volume 300,
and `price*volume*(1+fee) = 30150 ≠ 30000`. -/
theorem c3_counterexample :
    build_order RiskLimits.default 10000 100 99 1000000000 0 (1 / 200) = some (100, 300) ∧
    position_size RiskLimits.default 10000 (align_price 100) 99 = some 10 ∧
    (100 * (10 : ℚ) * (1 + 1 / 200) < max 30000 0) ∧
    (100 * (300 : ℚ) * (1 + 1 / 200) ≤ 1000000000) ∧
    (100 * (300 : ℚ) * (1 + 1 / 200) = 30150) ∧
    ((30150 : ℚ) ≠ max 30000 0) := by
  refine ⟨by decide, by decide, by decide, by decide, by decide, by decide⟩

/-- C3, amended.  When the risk-sized order value is below the minimum
notional (aligned price positive, fee non-negative), the volume is
raised to `min_total / price`, so that `price * volume` equals the
minimum notional exactly and the fee-inclusive order value equals
`min_total * (1 + fee)`, which meets or exceeds the minimum notional. -/
theorem c3_min_notional_raise (equity entry stop minRaw fee v0 : ℚ)
    (hprice : 0 < align_price entry) (hfee : 0 ≤ fee)
    (hv0 : position_size RiskLimits.default equity (align_price entry) stop = some v0)
    (hbelow : align_price entry * v0 * (1 + fee) < max 30000 minRaw) :
    build_order_vol1 RiskLimits.default equity entry stop minRaw fee
      = some (max 30000 minRaw / align_price entry) ∧
    align_price entry * (max 30000 minRaw / align_price entry) = max 30000 minRaw ∧
    align_price entry * (max 30000 minRaw / align_price entry) * (1 + fee)
      = max 30000 minRaw * (1 + fee) ∧
    max 30000 minRaw ≤ max 30000 minRaw * (1 + fee) := by
  have hne : align_price entry ≠ 0 := ne_of_gt hprice
  have hcancel : align_price entry * (max 30000 minRaw / align_price entry) = max 30000 minRaw :=
    mul_div_cancel₀ _ hne
  refine ⟨?_, hcancel, by rw [hcancel], ?_⟩
  · simp only [build_order_vol1, hv0, Option.bind_eq_bind, Option.some_bind]
    rw [if_neg (by rintro ⟨-, h0⟩; exact hne h0), if_pos hbelow]
  · have hM : (0 : ℚ) ≤ max 30000 minRaw := le_trans (by norm_num) (le_max_left _ _)
    nlinarith

/-- C3, witness: the amended theorem applied at equity 10000, entry 100,
stop 99, raw minimum 0 and fee 0.005. -/
theorem c3_witness :
    (0 : ℚ) < align_price 100 ∧ (0 : ℚ) ≤ 1 / 200 ∧
    position_size RiskLimits.default 10000 (align_price 100) 99 = some 10 ∧
    (align_price 100 * 10 * (1 + 1 / 200) < max 30000 0) ∧
    build_order_vol1 RiskLimits.default 10000 100 99 0 (1 / 200)
      = some (max 30000 0 / align_price 100) :=
  ⟨by decide, by decide, by decide, by decide,
   (c3_min_notional_raise 10000 100 99 0 (1 / 200) 10 (by decide) (by decide)
     (by decide) (by decide)).1⟩

/-- C2, counterexample.  With a negative aligned price the cash clamp's
division produces a negative volume which the final floor replaces by 0,
so the returned order value is 0, not `cash_available`: equity 0,
entry −100, stop −99, cash 1000, fee 0 — the stage-two order value 30000
exceeds the cash 1000, yet the returned volume is 0 and
`price*volume*(1+fee) = 0 ≠ 1000`. -/
theorem c2_counterexample :
    build_order RiskLimits.default 0 (-100) (-99) 1000 0 0 = some (-100, 0) ∧
    build_order_vol1 RiskLimits.default 0 (-100) (-99) 0 0 = some (-300) ∧
    ((0 : ℚ) ≤ 1000) ∧ ((-100 : ℚ) * (-300) * (1 + 0) > 1000) ∧
    ((-100 : ℚ) * 0 * (1 + 0) ≠ 1000) := by
  refine ⟨by decide, by decide, by decide, by decide, by decide⟩

/-- C2, amended.  For every `build_order` return with non-negative cash
and fee, the final order value `price * volume * (1 + fee)` never
exceeds `cash_available`; and whenever the order value after the
minimum-notional stage exceeds `cash_available` and the aligned price is
positive, the returned volume satisfies
`price * volume * (1 + fee) = cash_available` exactly. -/
theorem c2_cash_clamp (equity entry stop cash minRaw fee p v : ℚ)
    (hcash : 0 ≤ cash) (hfee : 0 ≤ fee)
    (hres : build_order RiskLimits.default equity entry stop cash minRaw fee = some (p, v)) :
    p * v * (1 + fee) ≤ cash ∧
    (∀ v1, build_order_vol1 RiskLimits.default equity entry stop minRaw fee = some v1 →
      0 < p → p * v1 * (1 + fee) > cash → p * v * (1 + fee) = cash) := by
  have hfee1 : (0 : ℚ) < 1 + fee := by linarith
  rcases hvol1 : build_order_vol1 RiskLimits.default equity entry stop minRaw fee with _ | v1
  · rw [build_order, hvol1] at hres
    simp at hres
  · rw [build_order, hvol1] at hres
    simp only [Option.bind_eq_bind, Option.some_bind] at hres
    by_cases hclamp : align_price entry * v1 * (1 + fee) > cash
    · have hdvd : align_price entry * (1 + fee) ≠ 0 := by
        intro h0
        rw [if_pos ⟨hclamp, h0⟩] at hres
        exact Option.noConfusion hres
      have ha : align_price entry ≠ 0 := left_ne_zero_of_mul hdvd
      have hf : (1 : ℚ) + fee ≠ 0 := right_ne_zero_of_mul hdvd
      have hval : align_price entry * (cash / (align_price entry * (1 + fee))) * (1 + fee)
          = cash := by
        field_simp
        ring
      rw [if_neg (by rintro ⟨-, h0⟩; exact hdvd h0), if_pos hclamp] at hres
      rw [Option.some_inj, Prod.mk.injEq] at hres
      obtain ⟨hp, hv⟩ := hres
      subst hp
      subst hv
      constructor
      · by_cases hx : 0 ≤ cash / (align_price entry * (1 + fee))
        · rw [max_eq_left hx, hval]
        · rw [max_eq_right (le_of_lt (not_le.mp hx))]
          simpa using hcash
      · intro w hw hp0 _
        rw [max_eq_left (div_nonneg hcash (le_of_lt (mul_pos hp0 hfee1))), hval]
    · rw [if_neg (by rintro ⟨hc, -⟩; exact hclamp hc), if_neg hclamp] at hres
      rw [Option.some_inj, Prod.mk.injEq] at hres
      obtain ⟨hp, hv⟩ := hres
      subst hp
      subst hv
      constructor
      · by_cases hx : 0 ≤ v1
        · rw [max_eq_left hx]
          exact not_lt.mp hclamp
        · rw [max_eq_right (le_of_lt (not_le.mp hx))]
          simpa using hcash
      · intro w hw hp0 hgt
        rw [Option.some_inj] at hw
        subst hw
        exact absurd hgt hclamp

/-- C2, witness: the cash-clamp theorem applied at the spec's own
scenario (entry 100, stop 99, cash 1000, minimum 30000, fee 0.005): the
returned volume is `2000/201` and the order value is exactly 1000. -/
theorem c2_witness :
    (100 : ℚ) * (2000 / 201) * (1 + 1 / 200) ≤ 1000 ∧
    (100 : ℚ) * (2000 / 201) * (1 + 1 / 200) = 1000 := by
  have H := c2_cash_clamp 10000 100 99 1000 0 (1 / 200) 100 (2000 / 201)
    (by norm_num) (by norm_num) (by decide)
  exact ⟨H.1, H.2 300 (by decide) (by norm_num) (by decide)⟩

/-- C8.  For a long position, `should_exit` is true whenever the last
close is at or below the fixed stop: the first exit condition's second
disjunct fires, before any trailing/take-profit/momentum/ATR condition
is consulted. -/
theorem c8_long_stop_exit (f : Frame) (position : PositionSnapshot)
    (hside : position.side = "buy")
    (hstop : le (ilocNeg f.close 1) position.stop = true) :
    should_exit f position = true := by
  simp [should_exit, hside, hstop]

/-- C8, witness: the stop-exit theorem applied to the one-row frame. -/
theorem c8_witness :
    c8Pos.side = "buy" ∧ le (ilocNeg c8Frame.close 1) c8Pos.stop = true ∧
    should_exit c8Frame c8Pos = true :=
  ⟨rfl, by decide, c8_long_stop_exit c8Frame c8Pos rfl (by decide)⟩

/-- Helper for C10: closed form of the holdings loop. -/
theorem holdings_foldl (tickers : String → Option ℚ) (avg : List (String × ℚ))
    (l : List (String × ℚ)) :
    ∀ (e : ℚ) (ps : List (String × PositionSnapshot)),
      l.foldl (holdingsStep tickers avg) (e, ps)
        = (e + (l.map fun mq => markPrice tickers avg mq.1 * mq.2).sum,
           ps ++ l.map (reconstructedPosition tickers avg)) := by
  induction l with
  | nil => intro e ps; simp
  | cons x xs ih =>
      intro e ps
      rw [List.foldl_cons, ih]
      simp [holdingsStep, add_assoc]

/-- C10.  `refresh_portfolio` sets cash to the summed KRW balances,
equity to cash plus the sum of mark price × quantity over the holdings,
and rebuilds each non-KRW holding as a fresh long `PositionSnapshot`
whose side is `"buy"` and whose stop, take-profit and trailing are
0.97, 1.05 and 0.02 times the holding's mark price (the original entry
signal's levels are not restored). -/
theorem c10_refresh_reconstruction (balances : List Balance) (tickers : String → Option ℚ) :
    (refresh_portfolio balances tickers).cash = (balancesFold balances).1 ∧
    (refresh_portfolio balances tickers).equity
      = (balancesFold balances).1 +
        ((balancesFold balances).2.1.map fun mq =>
          markPrice tickers (balancesFold balances).2.2 mq.1 * mq.2).sum ∧
    (refresh_portfolio balances tickers).positions
      = (balancesFold balances).2.1.map
          (reconstructedPosition tickers (balancesFold balances).2.2) ∧
    ∀ x ∈ (refresh_portfolio balances tickers).positions,
      x.2.side = "buy" ∧
      x.2.stop = fin (markPrice tickers (balancesFold balances).2.2 x.1 * (97 / 100)) ∧
      x.2.take_profit = fin (markPrice tickers (balancesFold balances).2.2 x.1 * (105 / 100)) ∧
      x.2.trailing = fin (markPrice tickers (balancesFold balances).2.2 x.1 * (2 / 100)) := by
  rcases hB : balancesFold balances with ⟨krw, hold, avg⟩
  have hfold := holdings_foldl tickers avg hold krw []
  have hrefresh : refresh_portfolio balances tickers
      = { equity := krw + (hold.map fun mq => markPrice tickers avg mq.1 * mq.2).sum
          cash := krw
          positions := hold.map (reconstructedPosition tickers avg) } := by
    rw [refresh_portfolio, hB]
    simp only [hfold, List.nil_append]
  refine ⟨by rw [hrefresh], by rw [hrefresh], by rw [hrefresh], ?_⟩
  intro x hx
  rw [hrefresh] at hx
  simp only [List.mem_map] at hx
  obtain ⟨mq, _, hxeq⟩ := hx
  subst hxeq
  simp [reconstructedPosition]

/-- C6.  In any cycle whose refreshed equity puts `hit_daily_limit` at
true, the entry phase submits no order at all — whatever the candidate
signals, the open positions, the cash or the order-chance data — while
the exit phase still runs and its submissions are exactly those of the
exit checks over the refreshed positions. -/
theorem c6_daily_limit_blocks_entries (env : CycleEnv) (daily_loss : ℚ)
    (h : hit_daily_limit RiskLimits.default daily_loss
        (refresh_portfolio env.balances env.tickers).equity = true) :
    (run_cycle env daily_loss).entryOrders = [] ∧
    (run_cycle env daily_loss).exitOrders
      = (exitChecksGo env (refresh_portfolio env.balances env.tickers).positions).1 := by
  rcases hE : exitChecksGo env (refresh_portfolio env.balances env.tickers).positions
    with ⟨os, ps, ab⟩
  cases ab with
  | true => simp [run_cycle, hE]
  | false => simp [run_cycle, hE, enterPositions, h]

/-- C6, witness: with an accumulated loss of −1 and equity 0 the limit
is hit and the cycle submits no entry order. -/
theorem c6_witness :
    hit_daily_limit RiskLimits.default (-1) (refresh_portfolio env0.balances env0.tickers).equity
      = true ∧
    (run_cycle env0 (-1)).entryOrders = [] ∧
    (run_cycle env0 (-1)).exitOrders
      = (exitChecksGo env0 (refresh_portfolio env0.balances env0.tickers).positions).1 :=
  ⟨by decide, c6_daily_limit_blocks_entries env0 (-1) (by decide)⟩

/-- Rounding an integer returns it unchanged. -/
theorem pyRound_intCast (k : ℤ) : pyRound (k : ℚ) = k := by
  simp [pyRound, Int.floor_intCast]

/-- Rounding moves the value by at most one half, upward. -/
theorem pyRound_le_add_half (x : ℚ) : (pyRound x : ℚ) ≤ x + 1 / 2 := by
  have h1 : (⌊x⌋ : ℚ) ≤ x := Int.floor_le x
  unfold pyRound
  split_ifs with ha hb hc <;> push_cast <;> linarith

/-- Rounding moves the value by at most one half, downward. -/
theorem sub_half_le_pyRound (x : ℚ) : x - 1 / 2 ≤ (pyRound x : ℚ) := by
  have h1 : (⌊x⌋ : ℚ) ≤ x := Int.floor_le x
  have h2 : x < ⌊x⌋ + 1 := Int.lt_floor_add_one x
  unfold pyRound
  split_ifs with ha hb hc <;> push_cast <;> linarith

/-- A value strictly below an integer rounds to at most that integer. -/
theorem pyRound_le_of_lt_int {x : ℚ} {B : ℤ} (h : x < B) : pyRound x ≤ B := by
  have h1 := pyRound_le_add_half x
  have h2 : (pyRound x : ℚ) < (B : ℚ) + 1 := by linarith
  have h3 : pyRound x < B + 1 := by exact_mod_cast h2
  omega

/-- A value at or above an integer rounds to at least that integer. -/
theorem int_le_pyRound {x : ℚ} {A : ℤ} (h : (A : ℚ) ≤ x) : A ≤ pyRound x := by
  have h1 := sub_half_le_pyRound x
  have h2 : (A : ℚ) - 1 < (pyRound x : ℚ) := by linarith
  have h3 : A - 1 < pyRound x := by exact_mod_cast h2
  omega

/-- Tick bands of `_tick_size`, read off the if-chain. -/
theorem tick_size_band1 {q : ℚ} (h : q < 10) : tick_size q = 1 / 100 := by
  rw [tick_size, if_pos h]

theorem tick_size_band2 {q : ℚ} (h1 : 10 ≤ q) (h2 : q < 100) : tick_size q = 1 / 10 := by
  rw [tick_size, if_neg (by linarith), if_pos h2]

theorem tick_size_band3 {q : ℚ} (h1 : 100 ≤ q) (h2 : q < 1000) : tick_size q = 1 := by
  rw [tick_size, if_neg (by linarith), if_neg (by linarith), if_pos h2]

theorem tick_size_band4 {q : ℚ} (h1 : 1000 ≤ q) (h2 : q < 10000) : tick_size q = 5 := by
  rw [tick_size, if_neg (by linarith), if_neg (by linarith), if_neg (by linarith), if_pos h2]

theorem tick_size_band5 {q : ℚ} (h1 : 10000 ≤ q) (h2 : q < 50000) : tick_size q = 10 := by
  rw [tick_size, if_neg (by linarith), if_neg (by linarith), if_neg (by linarith),
    if_neg (by linarith), if_pos h2]

theorem tick_size_band6 {q : ℚ} (h1 : 50000 ≤ q) (h2 : q < 100000) : tick_size q = 50 := by
  rw [tick_size, if_neg (by linarith), if_neg (by linarith), if_neg (by linarith),
    if_neg (by linarith), if_neg (by linarith), if_pos h2]

theorem tick_size_band7 {q : ℚ} (h1 : 100000 ≤ q) (h2 : q < 500000) : tick_size q = 100 := by
  rw [tick_size, if_neg (by linarith), if_neg (by linarith), if_neg (by linarith),
    if_neg (by linarith), if_neg (by linarith), if_neg (by linarith), if_pos h2]

theorem tick_size_band8 {q : ℚ} (h1 : 500000 ≤ q) (h2 : q < 1000000) : tick_size q = 500 := by
  rw [tick_size, if_neg (by linarith), if_neg (by linarith), if_neg (by linarith),
    if_neg (by linarith), if_neg (by linarith), if_neg (by linarith), if_neg (by linarith),
    if_pos h2]

theorem tick_size_band9 {q : ℚ} (h1 : 1000000 ≤ q) (h2 : q < 2000000) : tick_size q = 1000 := by
  rw [tick_size, if_neg (by linarith), if_neg (by linarith), if_neg (by linarith),
    if_neg (by linarith), if_neg (by linarith), if_neg (by linarith), if_neg (by linarith),
    if_neg (by linarith), if_pos h2]

theorem tick_size_band10 {q : ℚ} (h1 : 2000000 ≤ q) : tick_size q = 2000 := by
  rw [tick_size, if_neg (by linarith), if_neg (by linarith), if_neg (by linarith),
    if_neg (by linarith), if_neg (by linarith), if_neg (by linarith), if_neg (by linarith),
    if_neg (by linarith), if_neg (by linarith)]

/-- A price that is an integer multiple of its own tick is a fixed point
of `align_price`. -/
theorem align_price_fixed {q t : ℚ} (m : ℤ) (ht : tick_size q = t) (ht0 : t ≠ 0)
    (hm : q = (m : ℚ) * t) : align_price q = q := by
  rw [align_price, ht, hm, mul_div_cancel_right₀ _ ht0, pyRound_intCast]

/-- Inside one tick band `[A*t, B*t)` whose bounds are integer multiples
of the band's tick, `align_price p` stays in `[A*t, B*t]`; it is a fixed
point of `align_price` either because it stays in the band (where it is
a multiple of the same tick) or because it lands exactly on the upper
bound, itself assumed aligned. -/
theorem align_band {p t : ℚ} (A B : ℤ)
    (ht : 0 < t)
    (htick : tick_size p = t)
    (hlo : (A : ℚ) * t ≤ p) (hhi : p < (B : ℚ) * t)
    (hq_tick : ∀ q : ℚ, (A : ℚ) * t ≤ q → q < (B : ℚ) * t → tick_size q = t)
    (hhi_fix : align_price ((B : ℚ) * t) = (B : ℚ) * t) :
    align_price (align_price p) = align_price p := by
  have hx_lo : (A : ℚ) ≤ p / t := (le_div_iff ht).mpr hlo
  have hx_hi : p / t < (B : ℚ) := (div_lt_iff ht).mpr hhi
  have hkA : A ≤ pyRound (p / t) := int_le_pyRound hx_lo
  have hkB : pyRound (p / t) ≤ B := pyRound_le_of_lt_int hx_hi
  have halign : align_price p = (pyRound (p / t) : ℚ) * t := by
    rw [align_price, htick]
  have hq_lo : (A : ℚ) * t ≤ (pyRound (p / t) : ℚ) * t :=
    mul_le_mul_of_nonneg_right (by exact_mod_cast hkA) (le_of_lt ht)
  have hq_hi : (pyRound (p / t) : ℚ) * t ≤ (B : ℚ) * t :=
    mul_le_mul_of_nonneg_right (by exact_mod_cast hkB) (le_of_lt ht)
  rcases lt_or_eq_of_le hq_hi with hlt | heq
  · rw [halign]
    exact align_price_fixed (pyRound (p / t)) (hq_tick _ hq_lo hlt) (ne_of_gt ht) rfl
  · rw [halign, heq, hhi_fix]

/-- C7.  `align_price` is idempotent on every price, including prices
whose rounding crosses a band boundary of the tick lookup: band bounds
are integer multiples of the next band's tick, so a price rounded onto a
boundary is already aligned there. -/
theorem c7_align_price_idempotent (p : ℚ) :
    align_price (align_price p) = align_price p := by
  have fix10 : align_price 10 = 10 :=
    align_price_fixed 100 (tick_size_band2 (by norm_num) (by norm_num)) (by norm_num)
      (by norm_num)
  have fix100 : align_price 100 = 100 :=
    align_price_fixed 100 (tick_size_band3 (by norm_num) (by norm_num)) (by norm_num)
      (by norm_num)
  have fix1000 : align_price 1000 = 1000 :=
    align_price_fixed 200 (tick_size_band4 (by norm_num) (by norm_num)) (by norm_num)
      (by norm_num)
  have fix10000 : align_price 10000 = 10000 :=
    align_price_fixed 1000 (tick_size_band5 (by norm_num) (by norm_num)) (by norm_num)
      (by norm_num)
  have fix50000 : align_price 50000 = 50000 :=
    align_price_fixed 1000 (tick_size_band6 (by norm_num) (by norm_num)) (by norm_num)
      (by norm_num)
  have fix100000 : align_price 100000 = 100000 :=
    align_price_fixed 1000 (tick_size_band7 (by norm_num) (by norm_num)) (by norm_num)
      (by norm_num)
  have fix500000 : align_price 500000 = 500000 :=
    align_price_fixed 1000 (tick_size_band8 (by norm_num) (by norm_num)) (by norm_num)
      (by norm_num)
  have fix1000000 : align_price 1000000 = 1000000 :=
    align_price_fixed 1000 (tick_size_band9 (by norm_num) (by norm_num)) (by norm_num)
      (by norm_num)
  have fix2000000 : align_price 2000000 = 2000000 :=
    align_price_fixed 1000 (tick_size_band10 (by norm_num)) (by norm_num) (by norm_num)
  rcases lt_or_le p 10 with h1 | h1
  · -- band 1: only an upper bound; align p = k/100 with k ≤ 1000
    have htick : tick_size p = 1 / 100 := tick_size_band1 h1
    have hx_hi : p / (1 / 100) < ((1000 : ℤ) : ℚ) := by
      rw [div_lt_iff (by norm_num)]
      push_cast
      linarith
    have hkB : pyRound (p / (1 / 100)) ≤ 1000 := pyRound_le_of_lt_int hx_hi
    have halign : align_price p = (pyRound (p / (1 / 100)) : ℚ) * (1 / 100) := by
      rw [align_price, htick]
    have hq_hi : (pyRound (p / (1 / 100)) : ℚ) * (1 / 100) ≤ 10 := by
      have : (pyRound (p / (1 / 100)) : ℚ) ≤ 1000 := by exact_mod_cast hkB
      linarith
    rcases lt_or_eq_of_le hq_hi with hlt | heq
    · rw [halign]
      exact align_price_fixed (pyRound (p / (1 / 100))) (tick_size_band1 hlt)
        (by norm_num) rfl
    · rw [halign, heq, fix10]
  rcases lt_or_le p 100 with h2 | h2
  · refine align_band 100 1000 (by norm_num) (tick_size_band2 h1 h2) ?_ ?_ ?_ ?_
    · push_cast; linarith
    · push_cast; linarith
    · intro q hq1 hq2
      push_cast at hq1 hq2
      exact tick_size_band2 (by linarith) (by linarith)
    · push_cast
      norm_num
      exact fix100
  rcases lt_or_le p 1000 with h3 | h3
  · refine align_band 100 1000 (by norm_num) (tick_size_band3 h2 h3) ?_ ?_ ?_ ?_
    · push_cast; linarith
    · push_cast; linarith
    · intro q hq1 hq2
      push_cast at hq1 hq2
      exact tick_size_band3 (by linarith) (by linarith)
    · push_cast
      norm_num
      exact fix1000
  rcases lt_or_le p 10000 with h4 | h4
  · refine align_band 200 2000 (by norm_num) (tick_size_band4 h3 h4) ?_ ?_ ?_ ?_
    · push_cast; linarith
    · push_cast; linarith
    · intro q hq1 hq2
      push_cast at hq1 hq2
      exact tick_size_band4 (by linarith) (by linarith)
    · push_cast
      norm_num
      exact fix10000
  rcases lt_or_le p 50000 with h5 | h5
  · refine align_band 1000 5000 (by norm_num) (tick_size_band5 h4 h5) ?_ ?_ ?_ ?_
    · push_cast; linarith
    · push_cast; linarith
    · intro q hq1 hq2
      push_cast at hq1 hq2
      exact tick_size_band5 (by linarith) (by linarith)
    · push_cast
      norm_num
      exact fix50000
  rcases lt_or_le p 100000 with h6 | h6
  · refine align_band 1000 2000 (by norm_num) (tick_size_band6 h5 h6) ?_ ?_ ?_ ?_
    · push_cast; linarith
    · push_cast; linarith
    · intro q hq1 hq2
      push_cast at hq1 hq2
      exact tick_size_band6 (by linarith) (by linarith)
    · push_cast
      norm_num
      exact fix100000
  rcases lt_or_le p 500000 with h7 | h7
  · refine align_band 1000 5000 (by norm_num) (tick_size_band7 h6 h7) ?_ ?_ ?_ ?_
    · push_cast; linarith
    · push_cast; linarith
    · intro q hq1 hq2
      push_cast at hq1 hq2
      exact tick_size_band7 (by linarith) (by linarith)
    · push_cast
      norm_num
      exact fix500000
  rcases lt_or_le p 1000000 with h8 | h8
  · refine align_band 1000 2000 (by norm_num) (tick_size_band8 h7 h8) ?_ ?_ ?_ ?_
    · push_cast; linarith
    · push_cast; linarith
    · intro q hq1 hq2
      push_cast at hq1 hq2
      exact tick_size_band8 (by linarith) (by linarith)
    · push_cast
      norm_num
      exact fix1000000
  rcases lt_or_le p 2000000 with h9 | h9
  · refine align_band 1000 2000 (by norm_num) (tick_size_band9 h8 h9) ?_ ?_ ?_ ?_
    · push_cast; linarith
    · push_cast; linarith
    · intro q hq1 hq2
      push_cast at hq1 hq2
      exact tick_size_band9 (by linarith) (by linarith)
    · push_cast
      norm_num
      exact fix2000000
  · -- band 10: only a lower bound; the result stays at or above 2000000
    have htick : tick_size p = 2000 := tick_size_band10 h9
    have hx_lo : ((1000 : ℤ) : ℚ) ≤ p / 2000 := by
      rw [le_div_iff (by norm_num)]
      push_cast
      linarith
    have hkA : 1000 ≤ pyRound (p / 2000) := int_le_pyRound hx_lo
    have halign : align_price p = (pyRound (p / 2000) : ℚ) * 2000 := by
      rw [align_price, htick]
    have hq_lo : (2000000 : ℚ) ≤ (pyRound (p / 2000) : ℚ) * 2000 := by
      have : (1000 : ℚ) ≤ (pyRound (p / 2000) : ℚ) := by exact_mod_cast hkA
      linarith
    rw [halign]
    exact align_price_fixed (pyRound (p / 2000)) (tick_size_band10 hq_lo)
      (by norm_num) rfl

set_option maxRecDepth 100000 in
set_option maxHeartbeats 4000000 in
/-- C4, counterexample.  On a frame whose values are all finite, whose
last close is 1 > 0 but whose close ten candles back is 0 and whose ATR
is 0, the momentum term is `1/0 = inf`, the weighted sum is `inf`, and
the quality gate multiplies it by 0 giving a `nan` score; `nan == 0` is
false, so a signal is generated, and `nan > 0` is false, so it is a
"sell" signal with `take_profit = entry = stop = 1`, violating the
ordering invariant `take_profit < entry < stop`. -/
theorem c4_counterexample :
    cxFrame.wf ∧
    (cxFrame.high.all isFin && cxFrame.low.all isFin && cxFrame.close.all isFin
      && cxFrame.volume.all isFin) = true ∧
    lt (fin 0) (ilocNeg cxFrame.close 1) = true ∧
    generate_entry_signal "KRW-BTC" cxFrame = some cxSignal ∧
    cxSignal.side = "sell" ∧
    lt cxSignal.take_profit cxSignal.entry = false ∧
    lt cxSignal.entry cxSignal.stop = false := by
  refine ⟨by decide, by decide, by decide, ?_, by decide, by decide, by decide⟩
  decide

/-! ### Finiteness infrastructure for the signal-ordering theorem -/

theorem isFin_exists {v : FVal} (h : isFin v = true) : ∃ q, v = fin q := by
  cases v with
  | fin q => exact ⟨q, rfl⟩
  | nan => simp [isFin] at h
  | inf => simp [isFin] at h
  | ninf => simp [isFin] at h

theorem isFin_of_finOrNan_ne_nan {v : FVal} (h : isFinOrNan v = true) (hn : v ≠ nan) :
    isFin v = true := by
  cases v <;> simp_all [isFinOrNan, isFin]

theorem fin_add_fin (a b : ℚ) : add (fin a) (fin b) = fin (a + b) := rfl

theorem fin_mul_fin (a b : ℚ) : mul (fin a) (fin b) = fin (a * b) := rfl

theorem fin_sub_fin (a b : ℚ) : sub (fin a) (fin b) = fin (a - b) := by
  simp [FVal.sub, FVal.neg, FVal.add, sub_eq_add_neg]

theorem fin_div_fin (a : ℚ) {b : ℚ} (hb : b ≠ 0) : div (fin a) (fin b) = fin (a / b) := by
  simp [FVal.div, hb]

theorem isFin_add {a b : FVal} (ha : isFin a = true) (hb : isFin b = true) :
    isFin (add a b) = true := by
  obtain ⟨x, hx⟩ := isFin_exists ha
  obtain ⟨y, hy⟩ := isFin_exists hb
  subst hx; subst hy
  rfl

theorem isFin_sub {a b : FVal} (ha : isFin a = true) (hb : isFin b = true) :
    isFin (sub a b) = true := by
  obtain ⟨x, hx⟩ := isFin_exists ha
  obtain ⟨y, hy⟩ := isFin_exists hb
  subst hx; subst hy
  rw [fin_sub_fin]
  rfl

theorem isFin_mul {a b : FVal} (ha : isFin a = true) (hb : isFin b = true) :
    isFin (mul a b) = true := by
  obtain ⟨x, hx⟩ := isFin_exists ha
  obtain ⟨y, hy⟩ := isFin_exists hb
  subst hx; subst hy
  rfl

theorem isFin_div {a : FVal} {y : ℚ} (ha : isFin a = true) (hy : y ≠ 0) :
    isFin (div a (fin y)) = true := by
  obtain ⟨x, hx⟩ := isFin_exists ha
  subst hx
  rw [fin_div_fin _ hy]
  rfl

theorem pymax_fin (a b : ℚ) : pymax (fin a) (fin b) = fin (max a b) := by
  rw [pymax]
  by_cases h : a < b
  · simp [FVal.lt, h, max_eq_right (le_of_lt h)]
  · simp [FVal.lt, h, max_eq_left (not_lt.mp h)]

theorem pymin_fin (a b : ℚ) : pymin (fin a) (fin b) = fin (min a b) := by
  rw [pymin]
  by_cases h : b < a
  · simp [FVal.lt, h, min_eq_right (le_of_lt h)]
  · simp [FVal.lt, h, min_eq_left (not_lt.mp h)]

theorem lt_fin_fin {a b : ℚ} : lt (fin a) (fin b) = true ↔ a < b := by
  simp [FVal.lt]

theorem isFinOrNan_sub {a b : FVal} (ha : isFin a = true) (hb : isFinOrNan b = true) :
    isFinOrNan (sub a b) = true := by
  obtain ⟨x, hx⟩ := isFin_exists ha
  subst hx
  cases b <;> simp_all [FVal.sub, FVal.neg, FVal.add, isFinOrNan]

theorem isFinOrNan_fabs {a : FVal} (ha : isFinOrNan a = true) :
    isFinOrNan (fabs a) = true := by
  cases a <;> simp_all [FVal.fabs, isFinOrNan]

theorem isFin_nanMax2 {a b : FVal} (ha : isFin a = true) (hb : isFinOrNan b = true) :
    isFin (nanMax2 a b) = true := by
  obtain ⟨x, hx⟩ := isFin_exists ha
  subst hx
  cases b with
  | nan => rfl
  | inf => simp [isFinOrNan] at hb
  | ninf => simp [isFinOrNan] at hb
  | fin y =>
      show isFin (if lt (fin x) (fin y) then fin y else fin x) = true
      split_ifs <;> rfl

theorem ilocNeg_eq_getElem {xs : List FVal} {k : ℕ} (_h1 : 1 ≤ k) (h2 : k ≤ xs.length)
    (h3 : xs.length - k < xs.length) : ilocNeg xs k = xs[xs.length - k] := by
  rw [ilocNeg, if_pos h2, List.getD_eq_getElem _ _ h3]

theorem ilocNeg_mem {xs : List FVal} {k : ℕ} (h1 : 1 ≤ k) (h2 : k ≤ xs.length) :
    ilocNeg xs k ∈ xs := by
  rw [ilocNeg_eq_getElem h1 h2 (by omega)]
  exact List.getElem_mem _

theorem ilocNeg_map (g : FVal → FVal) {xs : List FVal} (h : xs ≠ []) :
    ilocNeg (xs.map g) 1 = g (ilocNeg xs 1) := by
  have hlen : 1 ≤ xs.length := List.length_pos.mpr h
  rw [ilocNeg_eq_getElem le_rfl (by simpa using hlen) (by simp; omega),
    ilocNeg_eq_getElem le_rfl hlen (by omega)]
  simp

theorem ilocNeg_zipWith (g : FVal → FVal → FVal) {as bs : List FVal}
    (hlen : as.length = bs.length) (h : as ≠ []) :
    ilocNeg (List.zipWith g as bs) 1 = g (ilocNeg as 1) (ilocNeg bs 1) := by
  have ha : 1 ≤ as.length := List.length_pos.mpr h
  have hz : (List.zipWith g as bs).length = as.length := by
    rw [List.length_zipWith, hlen, min_self]
  rw [ilocNeg_eq_getElem le_rfl (by omega) (by omega),
    ilocNeg_eq_getElem le_rfl ha (by omega),
    ilocNeg_eq_getElem le_rfl (by omega) (by omega)]
  simp only [hz]
  rw [List.getElem_zipWith]
  congr 2
  omega

theorem ilocNeg_rollingMean (w : ℕ) {xs : List FVal} (h : xs ≠ []) :
    ilocNeg (rollingMean w xs) 1 = rollingMeanAt w xs (xs.length - 1) := by
  have hlen : 1 ≤ xs.length := List.length_pos.mpr h
  have hr : (rollingMean w xs).length = xs.length := by simp [rollingMean]
  rw [ilocNeg_eq_getElem le_rfl (by omega) (by omega)]
  simp only [hr, rollingMean]
  rw [List.getElem_map, List.getElem_range]
  congr 1
  simp

theorem ilocNeg_ewmMean (span : ℕ) {xs : List FVal} (h : xs ≠ []) :
    ilocNeg (ewmMean span xs) 1 = ewmAt span xs (xs.length - 1) := by
  have hlen : 1 ≤ xs.length := List.length_pos.mpr h
  have hr : (ewmMean span xs).length = xs.length := by simp [ewmMean]
  rw [ilocNeg_eq_getElem le_rfl (by omega) (by omega)]
  simp only [hr, ewmMean]
  rw [List.getElem_map, List.getElem_range]
  congr 1
  simp

theorem mem_windowSlice {xs : List FVal} {w i : ℕ} {v : FVal}
    (h : v ∈ windowSlice xs w i) : v ∈ xs :=
  List.take_subset _ _ (List.drop_subset _ _ h)

theorem mem_windowSlice_cons {a : FVal} {ys : List FVal} {w i : ℕ} {v : FVal}
    (hw : 1 ≤ i + 1 - w) (h : v ∈ windowSlice (a :: ys) w i) : v ∈ ys := by
  rw [windowSlice, List.take_succ_cons] at h
  obtain ⟨k, hk⟩ : ∃ k, i + 1 - w = k + 1 := ⟨i - w, by omega⟩
  rw [hk, List.drop_succ_cons] at h
  exact List.take_subset _ _ (List.drop_subset _ _ h)

theorem mem_zipWith {g : FVal → FVal → FVal} : ∀ {as bs : List FVal} {v : FVal},
    v ∈ List.zipWith g as bs → ∃ a, a ∈ as ∧ ∃ b, b ∈ bs ∧ v = g a b := by
  intro as
  induction as with
  | nil => intro bs v h; simp at h
  | cons a as ih =>
      intro bs v h
      cases bs with
      | nil => simp at h
      | cons b bs =>
          rw [List.zipWith_cons_cons] at h
          rcases List.mem_cons.mp h with h | h
          · exact ⟨a, List.mem_cons_self _ _, b, List.mem_cons_self _ _, h⟩
          · obtain ⟨x, hx, y, hy, hv⟩ := ih h
            exact ⟨x, List.mem_cons_of_mem _ hx, y, List.mem_cons_of_mem _ hy, hv⟩

theorem zipWith3_nil_left (g : FVal → FVal → FVal → FVal) (bs cs : List FVal) :
    zipWith3 g [] bs cs = [] := by
  cases bs <;> cases cs <;> rfl

theorem zipWith3_nil_mid (g : FVal → FVal → FVal → FVal) (a : FVal) (as cs : List FVal) :
    zipWith3 g (a :: as) [] cs = [] := by
  cases cs <;> rfl

theorem zipWith3_nil_right (g : FVal → FVal → FVal → FVal) (a b : FVal)
    (as bs : List FVal) : zipWith3 g (a :: as) (b :: bs) [] = [] := rfl

theorem zipWith3_cons (g : FVal → FVal → FVal → FVal) (a b c : FVal)
    (as bs cs : List FVal) :
    zipWith3 g (a :: as) (b :: bs) (c :: cs) = g a b c :: zipWith3 g as bs cs := rfl

theorem mem_zipWith3 {g : FVal → FVal → FVal → FVal} :
    ∀ {as bs cs : List FVal} {v : FVal},
      v ∈ zipWith3 g as bs cs →
        ∃ a, a ∈ as ∧ ∃ b, b ∈ bs ∧ ∃ c, c ∈ cs ∧ v = g a b c := by
  intro as
  induction as with
  | nil => intro bs cs v h; rw [zipWith3_nil_left] at h; simp at h
  | cons a as ih =>
      intro bs cs v h
      cases bs with
      | nil => rw [zipWith3_nil_mid] at h; simp at h
      | cons b bs =>
          cases cs with
          | nil => rw [zipWith3_nil_right] at h; simp at h
          | cons c cs =>
              rw [zipWith3_cons] at h
              rcases List.mem_cons.mp h with h | h
              · exact ⟨a, List.mem_cons_self _ _, b, List.mem_cons_self _ _,
                  c, List.mem_cons_self _ _, h⟩
              · obtain ⟨x, hx, y, hy, z, hz, hv⟩ := ih h
                exact ⟨x, List.mem_cons_of_mem _ hx, y, List.mem_cons_of_mem _ hy,
                  z, List.mem_cons_of_mem _ hz, hv⟩

theorem zipWith3_length (g : FVal → FVal → FVal → FVal) :
    ∀ (as bs cs : List FVal),
      (zipWith3 g as bs cs).length = min as.length (min bs.length cs.length) := by
  intro as
  induction as with
  | nil => intro bs cs; rw [zipWith3_nil_left]; simp
  | cons a as ih =>
      intro bs cs
      cases bs with
      | nil => rw [zipWith3_nil_mid]; simp
      | cons b bs =>
          cases cs with
          | nil => rw [zipWith3_nil_right]; simp
          | cons c cs =>
              rw [zipWith3_cons]
              simp only [List.length_cons, ih]
              omega

theorem seriesDiff_length (xs : List FVal) : (seriesDiff xs).length = xs.length := by
  cases xs with
  | nil => rfl
  | cons x rest =>
      simp only [seriesDiff, List.length_cons, List.length_zipWith]
      omega

theorem seriesShift_length (xs : List FVal) : (seriesShift xs).length = xs.length := by
  cases xs with
  | nil => rfl
  | cons x rest =>
      simp [seriesShift]

theorem rollingMean_length (w : ℕ) (xs : List FVal) :
    (rollingMean w xs).length = xs.length := by
  simp [rollingMean]

theorem ewmMean_length (span : ℕ) (xs : List FVal) :
    (ewmMean span xs).length = xs.length := by
  simp [ewmMean]

theorem ffill_go_length (carry : FVal) : ∀ xs : List FVal,
    (ffill.go carry xs).length = xs.length := by
  intro xs
  induction xs generalizing carry with
  | nil => rfl
  | cons x rest ih =>
      cases x <;> simp [ffill.go, ih]

theorem ffill_length (xs : List FVal) : (ffill xs).length = xs.length :=
  ffill_go_length nan xs

theorem fillnaZero_length (xs : List FVal) : (fillnaZero xs).length = xs.length := by
  simp [fillnaZero]

theorem filledVolume_length (f : Frame) : (filledVolume f).length = f.volume.length := by
  rw [filledVolume, fillnaZero_length, ffill_length]

theorem trSeries_length {f : Frame} (hwf : f.wf) :
    (trSeries f).length = f.close.length := by
  obtain ⟨hh, hl, hv⟩ := hwf
  rw [trSeries, zipWith3_length]
  simp only [List.length_map, List.length_zipWith, seriesShift_length, hh, hl]
  omega

theorem macdLine_length (close : List FVal) : (macdLine close).length = close.length := by
  rw [macdLine, List.length_zipWith, ewmMean_length, ewmMean_length, min_self]

theorem macdHist_length (close : List FVal) : (macdHist close).length = close.length := by
  rw [macdHist, List.length_zipWith, macdSignal, ewmMean_length, macdLine_length, min_self]

theorem rsiSeries_length (close : List FVal) (w : ℕ) :
    (rsiSeries close w).length = close.length := by
  rw [rsiSeries]
  simp only [List.length_map, List.length_zipWith, rollingMean_length, seriesDiff_length,
    min_self]

theorem foldl_add_fin (xs : List FVal) : ∀ a : ℚ, (∀ v ∈ xs, isFin v = true) →
    ∃ s, xs.foldl add (fin a) = fin s := by
  induction xs with
  | nil => exact fun a _ => ⟨a, rfl⟩
  | cons x l ih =>
      intro a h
      obtain ⟨q, hq⟩ := isFin_exists (h x (List.mem_cons_self x l))
      subst hq
      exact ih (a + q) fun v hv => h v (List.mem_cons_of_mem _ hv)

theorem foldl_add_fin_nonneg (xs : List FVal) : ∀ a : ℚ, 0 ≤ a →
    (∀ v ∈ xs, ∃ q, v = fin q ∧ 0 ≤ q) →
    ∃ s, xs.foldl add (fin a) = fin s ∧ 0 ≤ s := by
  induction xs with
  | nil => exact fun a ha _ => ⟨a, rfl, ha⟩
  | cons x l ih =>
      intro a ha h
      obtain ⟨q, hq, hq0⟩ := h x (List.mem_cons_self x l)
      subst hq
      exact ih (a + q) (by linarith) fun v hv => h v (List.mem_cons_of_mem _ hv)

theorem foldl_add_fin_nonpos (xs : List FVal) : ∀ a : ℚ, a ≤ 0 →
    (∀ v ∈ xs, ∃ q, v = fin q ∧ q ≤ 0) →
    ∃ s, xs.foldl add (fin a) = fin s ∧ s ≤ 0 := by
  induction xs with
  | nil => exact fun a ha _ => ⟨a, rfl, ha⟩
  | cons x l ih =>
      intro a ha h
      obtain ⟨q, hq, hq0⟩ := h x (List.mem_cons_self x l)
      subst hq
      exact ih (a + q) (by linarith) fun v hv => h v (List.mem_cons_of_mem _ hv)

theorem rollingMeanAt_fin {w : ℕ} {l : List FVal} {i : ℕ} (hw : 0 < w)
    (hle : ¬i + 1 < w) (h : ∀ v ∈ windowSlice l w i, isFin v = true) :
    ∃ q, rollingMeanAt w l i = fin q := by
  obtain ⟨s, hs⟩ := foldl_add_fin (windowSlice l w i) 0 h
  refine ⟨s / w, ?_⟩
  rw [rollingMeanAt, if_neg hle, fvSum, hs,
    fin_div_fin _ (by exact_mod_cast Nat.pos_iff_ne_zero.mp hw)]

theorem rollingMeanAt_fin_nonneg {w : ℕ} {l : List FVal} {i : ℕ} (hw : 0 < w)
    (hle : ¬i + 1 < w) (h : ∀ v ∈ windowSlice l w i, ∃ q, v = fin q ∧ 0 ≤ q) :
    ∃ q, rollingMeanAt w l i = fin q ∧ 0 ≤ q := by
  obtain ⟨s, hs, hs0⟩ := foldl_add_fin_nonneg (windowSlice l w i) 0 le_rfl h
  have hw' : (0 : ℚ) < w := by exact_mod_cast hw
  refine ⟨s / w, ?_, div_nonneg hs0 (le_of_lt hw')⟩
  rw [rollingMeanAt, if_neg hle, fvSum, hs, fin_div_fin _ (ne_of_gt hw')]

theorem rollingMeanAt_fin_nonpos {w : ℕ} {l : List FVal} {i : ℕ} (hw : 0 < w)
    (hle : ¬i + 1 < w) (h : ∀ v ∈ windowSlice l w i, ∃ q, v = fin q ∧ q ≤ 0) :
    ∃ q, rollingMeanAt w l i = fin q ∧ q ≤ 0 := by
  obtain ⟨s, hs, hs0⟩ := foldl_add_fin_nonpos (windowSlice l w i) 0 le_rfl h
  have hw' : (0 : ℚ) < w := by exact_mod_cast hw
  refine ⟨s / w, ?_, div_nonpos_of_nonpos_of_nonneg hs0 (le_of_lt hw')⟩
  rw [rollingMeanAt, if_neg hle, fvSum, hs, fin_div_fin _ (ne_of_gt hw')]

theorem ewmDecay_pos {span : ℕ} (h : 2 ≤ span) : 0 < ewmDecay span := by
  have h' : (2 : ℚ) ≤ (span : ℚ) := by exact_mod_cast h
  rw [ewmDecay]
  apply div_pos <;> linarith

theorem ewmNum_foldl_fin (span i : ℕ) (xs : List FVal) :
    ∀ (l : List ℕ) (a : ℚ), (∀ j ∈ l, isFin (xs.getD j nan) = true) →
      ∃ b, l.foldl (ewmNumStep span i xs) (fin a) = fin b := by
  intro l
  induction l with
  | nil => exact fun a _ => ⟨a, rfl⟩
  | cons j l ih =>
      intro a h
      obtain ⟨q, hq⟩ := isFin_exists (h j (List.mem_cons_self j l))
      have hstep : ewmNumStep span i xs (fin a) j = fin (a + ewmDecay span ^ (i - j) * q) := by
        rw [ewmNumStep, hq]
        rfl
      rw [List.foldl_cons, hstep]
      exact ih _ fun j' hj' => h j' (List.mem_cons_of_mem j hj')

theorem ewmDen_foldl_ge (span i : ℕ) (xs : List FVal) (hd : 0 < ewmDecay span) :
    ∀ (l : List ℕ) (a : ℚ), a ≤ l.foldl (ewmDenStep span i xs) a := by
  intro l
  induction l with
  | nil => exact fun a => le_rfl
  | cons j l ih =>
      intro a
      have hstep : a ≤ ewmDenStep span i xs a j := by
        rw [ewmDenStep]
        cases xs.getD j nan with
        | nan => exact le_rfl
        | inf =>
            show a ≤ a + ewmDecay span ^ (i - j)
            nlinarith [pow_pos hd (i - j)]
        | ninf =>
            show a ≤ a + ewmDecay span ^ (i - j)
            nlinarith [pow_pos hd (i - j)]
        | fin q =>
            show a ≤ a + ewmDecay span ^ (i - j)
            nlinarith [pow_pos hd (i - j)]
      exact le_trans hstep (ih _)

theorem ewmAt_fin {span : ℕ} {xs : List FVal} {i : ℕ} (hspan : 2 ≤ span)
    (hi : i < xs.length) (hfin : ∀ v ∈ xs, isFin v = true) :
    ∃ q, ewmAt span xs i = fin q := by
  have hd := ewmDecay_pos hspan
  have hget : ∀ j ∈ List.range (i + 1), isFin (xs.getD j nan) = true := by
    intro j hj
    have hj' : j < xs.length := lt_of_lt_of_le (List.mem_range.mp hj) hi
    rw [List.getD_eq_getElem _ _ hj']
    exact hfin _ (List.getElem_mem _)
  obtain ⟨b, hb⟩ := ewmNum_foldl_fin span i xs (List.range (i + 1)) 0 hget
  have hden : 0 <
      (List.range (i + 1)).foldl (ewmDenStep span i xs) 0 := by
    rw [List.range_succ, List.foldl_append, List.foldl_cons, List.foldl_nil]
    have h0 : (0 : ℚ) ≤ (List.range i).foldl (ewmDenStep span i xs) 0 :=
      ewmDen_foldl_ge span i xs hd (List.range i) 0
    have hstep : (List.range i).foldl (ewmDenStep span i xs) 0
          + ewmDecay span ^ (i - i)
        ≤ ewmDenStep span i xs ((List.range i).foldl (ewmDenStep span i xs) 0) i := by
      rw [ewmDenStep]
      obtain ⟨q, hq⟩ := isFin_exists (hget i (by simp))
      rw [hq]
    have hpow : 0 < ewmDecay span ^ (i - i) := pow_pos hd _
    linarith
  refine ⟨b / (List.range (i + 1)).foldl (ewmDenStep span i xs) 0, ?_⟩
  rw [ewmAt]
  simp only [hb]
  rw [if_neg (ne_of_gt hden), fin_div_fin _ (ne_of_gt hden)]

theorem allFin_ewmMean {span : ℕ} {xs : List FVal} (hspan : 2 ≤ span)
    (hfin : ∀ v ∈ xs, isFin v = true) :
    ∀ v ∈ ewmMean span xs, isFin v = true := by
  intro v hv
  rw [ewmMean] at hv
  obtain ⟨i, hi, hvi⟩ := List.mem_map.mp hv
  obtain ⟨q, hq⟩ := ewmAt_fin hspan (List.mem_range.mp hi) hfin
  rw [← hvi, hq]
  rfl

theorem allFin_zipWith_sub {as bs : List FVal} (ha : ∀ v ∈ as, isFin v = true)
    (hb : ∀ v ∈ bs, isFin v = true) :
    ∀ v ∈ List.zipWith sub as bs, isFin v = true := by
  intro v hv
  obtain ⟨a, haa, b, hbb, hveq⟩ := mem_zipWith hv
  rw [hveq]
  exact isFin_sub (ha a haa) (hb b hbb)

theorem allFin_macdLine {close : List FVal} (h : ∀ v ∈ close, isFin v = true) :
    ∀ v ∈ macdLine close, isFin v = true := by
  rw [macdLine]
  exact allFin_zipWith_sub (allFin_ewmMean (by norm_num) h) (allFin_ewmMean (by norm_num) h)

theorem allFin_macdHist {close : List FVal} (h : ∀ v ∈ close, isFin v = true) :
    ∀ v ∈ macdHist close, isFin v = true := by
  rw [macdHist]
  exact allFin_zipWith_sub (allFin_macdLine h)
    (allFin_ewmMean (by norm_num) (allFin_macdLine h))

theorem seriesShift_cons (x : FVal) (rest : List FVal) :
    seriesShift (x :: rest) = nan :: (x :: rest).dropLast := rfl

theorem allFinOrNan_seriesShift {xs : List FVal} (h : ∀ v ∈ xs, isFin v = true) :
    ∀ v ∈ seriesShift xs, isFinOrNan v = true := by
  intro v hv
  cases xs with
  | nil => simp [seriesShift] at hv
  | cons x rest =>
      rw [seriesShift_cons] at hv
      rcases List.mem_cons.mp hv with hv | hv
      · rw [hv]; rfl
      · have := h v (List.dropLast_subset _ hv)
        cases v <;> simp_all [isFin, isFinOrNan]

theorem allFin_trSeries {f : Frame} (hh : ∀ v ∈ f.high, isFin v = true)
    (hl : ∀ v ∈ f.low, isFin v = true) (hc : ∀ v ∈ f.close, isFin v = true) :
    ∀ v ∈ trSeries f, isFin v = true := by
  intro v hv
  rw [trSeries] at hv
  obtain ⟨a, ha, b, hb, c, hcm, hveq⟩ := mem_zipWith3 hv
  have hafin : isFin a = true := by
    obtain ⟨x, hx, y, hy, haeq⟩ := mem_zipWith ha
    rw [haeq]
    exact isFin_sub (hh x hx) (hl y hy)
  have hbfn : isFinOrNan b = true := by
    obtain ⟨u, hu, hbeq⟩ := List.mem_map.mp hb
    obtain ⟨x, hx, y, hy, hueq⟩ := mem_zipWith hu
    rw [← hbeq, hueq]
    exact isFinOrNan_fabs (isFinOrNan_sub (hh x hx) (allFinOrNan_seriesShift hc y hy))
  have hcfn : isFinOrNan c = true := by
    obtain ⟨u, hu, hceq⟩ := List.mem_map.mp hcm
    obtain ⟨x, hx, y, hy, hueq⟩ := mem_zipWith hu
    rw [← hceq, hueq]
    exact isFinOrNan_fabs (isFinOrNan_sub (hl x hx) (allFinOrNan_seriesShift hc y hy))
  rw [hveq]
  exact isFin_nanMax2 (isFin_nanMax2 hafin hbfn) hcfn

theorem ffill_go_of_allFin (xs : List FVal) : ∀ carry, (∀ v ∈ xs, isFin v = true) →
    ffill.go carry xs = xs := by
  induction xs with
  | nil => intro carry _; rfl
  | cons x rest ih =>
      intro carry h
      obtain ⟨q, hq⟩ := isFin_exists (h x (List.mem_cons_self x rest))
      subst hq
      show fin q :: ffill.go (fin q) rest = fin q :: rest
      rw [ih _ fun v hv => h v (List.mem_cons_of_mem _ hv)]

theorem allFin_filledVolume {f : Frame} (h : ∀ v ∈ f.volume, isFin v = true) :
    ∀ v ∈ filledVolume f, isFin v = true := by
  intro v hv
  rw [filledVolume, ffill, ffill_go_of_allFin _ _ h] at hv
  obtain ⟨u, hu, hveq⟩ := List.mem_map.mp hv
  obtain ⟨q, hq⟩ := isFin_exists (h u hu)
  subst hq
  rw [← hveq]
  rfl

theorem fillnaZero_of_allFin : ∀ xs : List FVal, (∀ v ∈ xs, isFin v = true) →
    fillnaZero xs = xs := by
  intro xs
  induction xs with
  | nil => intro _; rfl
  | cons x rest ih =>
      intro h
      obtain ⟨q, hq⟩ := isFin_exists (h x (List.mem_cons_self x rest))
      subst hq
      show fin q :: fillnaZero rest = fin q :: rest
      rw [ih fun v hv => h v (List.mem_cons_of_mem _ hv)]

theorem filledVolume_of_allFin {f : Frame} (h : ∀ v ∈ f.volume, isFin v = true) :
    filledVolume f = f.volume := by
  rw [filledVolume, ffill, ffill_go_of_allFin _ _ h, fillnaZero_of_allFin _ h]

theorem close_nonempty {f : Frame} (h60 : 60 ≤ f.close.length) : f.close ≠ [] := by
  intro h0
  rw [h0] at h60
  simp at h60

theorem atr_last_fin {f : Frame} (hwf : f.wf) (h60 : 60 ≤ f.close.length)
    (hh : ∀ v ∈ f.high, isFin v = true) (hl : ∀ v ∈ f.low, isFin v = true)
    (hc : ∀ v ∈ f.close, isFin v = true) :
    ∃ a, ilocNeg (atrSeries f) 1 = fin a := by
  have htr := allFin_trSeries hh hl hc
  have hlen : (trSeries f).length = f.close.length := trSeries_length hwf
  have hne : trSeries f ≠ [] := by
    intro h0
    rw [h0] at hlen
    simp at hlen
    omega
  rw [atrSeries, ilocNeg_rollingMean _ hne]
  exact rollingMeanAt_fin (by norm_num) (by omega)
    fun v hv => htr v (mem_windowSlice hv)

theorem ema_last_fin {f : Frame} (span : ℕ) (hspan : 2 ≤ span)
    (h60 : 60 ≤ f.close.length) (hc : ∀ v ∈ f.close, isFin v = true) :
    ∃ q, ilocNeg (ewmMean span f.close) 1 = fin q := by
  rw [ilocNeg_ewmMean _ (close_nonempty h60)]
  exact ewmAt_fin hspan (by omega) hc

theorem trend_last_fin {f : Frame} (h60 : 60 ≤ f.close.length)
    (hc : ∀ v ∈ f.close, isFin v = true) {c : ℚ}
    (hlast : ilocNeg f.close 1 = fin c) (hc0 : c ≠ 0) :
    ∃ q, trend_score f = fin q := by
  obtain ⟨q21, h21⟩ := ema_last_fin 21 (by norm_num) h60 hc
  obtain ⟨q55, h55⟩ := ema_last_fin 55 (by norm_num) h60 hc
  rw [trend_score, h21, h55, hlast, fin_sub_fin, fin_div_fin _ hc0]
  exact ⟨_, rfl⟩

theorem momentum_last_fin {f : Frame} (h60 : 60 ≤ f.close.length)
    (hc : ∀ v ∈ f.close, isFin v = true) (hc10 : ilocNeg f.close 10 ≠ fin 0) :
    ∃ q, momentum_score f = fin q := by
  obtain ⟨c1, h1⟩ := isFin_exists (hc _ (ilocNeg_mem le_rfl (by omega)))
  obtain ⟨c10, h10⟩ := isFin_exists (hc _ (ilocNeg_mem (k := 10) (by norm_num) (by omega)))
  have hc10' : c10 ≠ 0 := by
    intro h0
    apply hc10
    rw [h10, h0]
  rw [momentum_score, h1, h10, fin_div_fin _ hc10', fin_sub_fin]
  exact ⟨_, rfl⟩

theorem macd_bias_last_fin {f : Frame} (h60 : 60 ≤ f.close.length)
    (hc : ∀ v ∈ f.close, isFin v = true) :
    ∃ q, macd_bias f = fin q := by
  rw [macd_bias]
  refine isFin_exists (allFin_macdHist hc _ (ilocNeg_mem le_rfl ?_))
  rw [macdHist_length]
  omega

theorem volume_last_fin {f : Frame} (hwf : f.wf) (h60 : 60 ≤ f.close.length)
    (hv : ∀ v ∈ f.volume, isFin v = true) :
    ∃ q, volume_score f = fin q := by
  have hlen : (filledVolume f).length = f.close.length := by
    rw [filledVolume_length, hwf.2.2]
  have hne : filledVolume f ≠ [] := by
    intro h0
    rw [h0] at hlen
    simp at hlen
    omega
  have hallfin := allFin_filledVolume hv
  obtain ⟨m, hm⟩ := rollingMeanAt_fin (l := filledVolume f)
    (i := (filledVolume f).length - 1) (w := 30) (by norm_num) (by omega)
    (fun v hv' => hallfin v (mem_windowSlice hv'))
  obtain ⟨u, hu⟩ := isFin_exists (hallfin _ (ilocNeg_mem le_rfl (by omega)))
  rw [volume_score, ilocNeg_rollingMean _ hne, hm, hu]
  by_cases h0 : (fin m : FVal) = fin 0
  · rw [if_pos h0, fin_div_fin _ one_ne_zero, fin_sub_fin]
    exact ⟨_, rfl⟩
  · have hm0 : m ≠ 0 := by
      intro h
      apply h0
      rw [h]
    rw [if_neg h0, fin_div_fin _ hm0, fin_sub_fin]
    exact ⟨_, rfl⟩

theorem rsi_last_fin {close : List FVal} (h60 : 60 ≤ close.length)
    (hc : ∀ v ∈ close, isFin v = true) :
    ∃ r, ilocNeg (rsiSeries close 14) 1 = fin r := by
  cases close with
  | nil => simp at h60
  | cons x rest =>
    set D := List.zipWith sub rest (x :: rest) with hD
    have hdelta : seriesDiff (x :: rest) = nan :: D := rfl
    have hDfin : ∀ v ∈ D, isFin v = true :=
      allFin_zipWith_sub (fun v hv => hc v (List.mem_cons_of_mem _ hv)) hc
    have hn : 60 ≤ (x :: rest).length := h60
    -- gains series
    have hgmap : (seriesDiff (x :: rest)).map clipLower0 = nan :: D.map clipLower0 := by
      rw [hdelta, List.map_cons]
      rfl
    have h60' : 59 ≤ rest.length := by
      have h := h60
      simp only [List.length_cons] at h
      omega
    have hglen : ((seriesDiff (x :: rest)).map clipLower0).length = (x :: rest).length := by
      rw [List.length_map, seriesDiff_length]
    have hgNat : ((seriesDiff (x :: rest)).map clipLower0).length = rest.length + 1 := by
      rw [hglen, List.length_cons]
    have hgne : (seriesDiff (x :: rest)).map clipLower0 ≠ [] := by
      intro hempty
      rw [hempty] at hglen
      simp at hglen
    have hwin1 : ∀ v ∈ windowSlice ((seriesDiff (x :: rest)).map clipLower0) 14
        (((seriesDiff (x :: rest)).map clipLower0).length - 1), ∃ q, v = fin q ∧ 0 ≤ q := by
      intro v hv
      rw [hgmap] at hv
      have hDlen1 : (D.map clipLower0).length = rest.length := by
        rw [List.length_map, hD, List.length_zipWith]
        simp only [List.length_cons]
        omega
      have hv' : v ∈ D.map clipLower0 := mem_windowSlice_cons
        (by simp only [List.length_cons, hDlen1]; omega) hv
      obtain ⟨u, hu, hveq⟩ := List.mem_map.mp hv'
      obtain ⟨q, hq⟩ := isFin_exists (hDfin u hu)
      subst hq
      exact ⟨max q 0, hveq.symm, le_max_right _ _⟩
    obtain ⟨g, hg, hg0⟩ := rollingMeanAt_fin_nonneg (w := 14)
      (l := (seriesDiff (x :: rest)).map clipLower0)
      (i := ((seriesDiff (x :: rest)).map clipLower0).length - 1)
      (by norm_num) (by rw [hgNat]; omega) hwin1
    -- loss series
    have hlmap : (seriesDiff (x :: rest)).map clipUpper0 = nan :: D.map clipUpper0 := by
      rw [hdelta, List.map_cons]
      rfl
    have hllen : ((seriesDiff (x :: rest)).map clipUpper0).length = (x :: rest).length := by
      rw [List.length_map, seriesDiff_length]
    have hlNat : ((seriesDiff (x :: rest)).map clipUpper0).length = rest.length + 1 := by
      rw [hllen, List.length_cons]
    have hlne : (seriesDiff (x :: rest)).map clipUpper0 ≠ [] := by
      intro hempty
      rw [hempty] at hllen
      simp at hllen
    have hwin2 : ∀ v ∈ windowSlice ((seriesDiff (x :: rest)).map clipUpper0) 14
        (((seriesDiff (x :: rest)).map clipUpper0).length - 1), ∃ q, v = fin q ∧ q ≤ 0 := by
      intro v hv
      rw [hlmap] at hv
      have hDlen2 : (D.map clipUpper0).length = rest.length := by
        rw [List.length_map, hD, List.length_zipWith]
        simp only [List.length_cons]
        omega
      have hv' : v ∈ D.map clipUpper0 := mem_windowSlice_cons
        (by simp only [List.length_cons, hDlen2]; omega) hv
      obtain ⟨u, hu, hveq⟩ := List.mem_map.mp hv'
      obtain ⟨q, hq⟩ := isFin_exists (hDfin u hu)
      subst hq
      exact ⟨min q 0, hveq.symm, min_le_right _ _⟩
    obtain ⟨l0, hl0, hl00⟩ := rollingMeanAt_fin_nonpos (w := 14)
      (l := (seriesDiff (x :: rest)).map clipUpper0)
      (i := ((seriesDiff (x :: rest)).map clipUpper0).length - 1)
      (by norm_num) (by rw [hlNat]; omega) hwin2
    -- assemble the last rs value
    have hgainlen : (rollingMean 14 ((seriesDiff (x :: rest)).map clipLower0)).length
        = (x :: rest).length := by
      rw [rollingMean_length, hglen]
    have hlosslen :
        (((rollingMean 14 ((seriesDiff (x :: rest)).map clipUpper0)).map neg).map
          fun v => if v = fin 0 then inf else v).length = (x :: rest).length := by
      simp only [List.length_map, rollingMean_length, hllen]
    have hgainne : rollingMean 14 ((seriesDiff (x :: rest)).map clipLower0) ≠ [] := by
      intro hempty
      rw [hempty] at hgainlen
      simp at hgainlen
    have hlossne0 : rollingMean 14 ((seriesDiff (x :: rest)).map clipUpper0) ≠ [] := by
      intro hempty
      have := hllen
      rw [← rollingMean_length 14 ((seriesDiff (x :: rest)).map clipUpper0), hempty] at this
      simp at this
    have hrsne : List.zipWith div (rollingMean 14 ((seriesDiff (x :: rest)).map clipLower0))
        (((rollingMean 14 ((seriesDiff (x :: rest)).map clipUpper0)).map neg).map
          fun v => if v = fin 0 then inf else v) ≠ [] := by
      intro hempty
      have hzl := congrArg List.length hempty
      rw [List.length_zipWith, hgainlen, hlosslen, min_self] at hzl
      simp at hzl
    have hrs : ∃ r, ilocNeg
        (List.zipWith div (rollingMean 14 ((seriesDiff (x :: rest)).map clipLower0))
          (((rollingMean 14 ((seriesDiff (x :: rest)).map clipUpper0)).map neg).map
            fun v => if v = fin 0 then inf else v)) 1 = fin r ∧ 0 ≤ r := by
      rw [ilocNeg_zipWith _ (by rw [hgainlen, hlosslen]) hgainne,
        ilocNeg_rollingMean _ hgne, hg,
        ilocNeg_map _ (by
          intro hempty
          have hlen2 := congrArg List.length hempty
          rw [List.length_map, rollingMean_length, hllen] at hlen2
          simp at hlen2),
        ilocNeg_map _ hlossne0,
        ilocNeg_rollingMean _ hlne, hl0]
      show ∃ r, div (fin g) (if (neg (fin l0) : FVal) = fin 0 then inf else neg (fin l0))
          = fin r ∧ 0 ≤ r
      have hnegl : (neg (fin l0) : FVal) = fin (-l0) := rfl
      rw [hnegl]
      by_cases hz : (fin (-l0) : FVal) = fin 0
      · rw [if_pos hz]
        exact ⟨0, rfl, le_rfl⟩
      · rw [if_neg hz]
        have hl0ne : -l0 ≠ 0 := by
          intro habs
          apply hz
          rw [habs]
        have hl0pos : 0 < -l0 := by
          rcases lt_or_eq_of_le hl00 with hcase | hcase
          · linarith
          · exact absurd (by rw [hcase, neg_zero]) hl0ne
        rw [fin_div_fin _ hl0ne]
        exact ⟨g / (-l0), rfl, div_nonneg hg0 (le_of_lt hl0pos)⟩
    obtain ⟨r, hr, hr0⟩ := hrs
    simp only [rsiSeries]
    rw [ilocNeg_map _ hrsne, hr]
    have h1r : (1 : ℚ) + r ≠ 0 := by linarith
    rw [fin_add_fin, fin_div_fin _ h1r, fin_sub_fin]
    exact ⟨_, rfl⟩

theorem rsi_bias_last_fin {f : Frame} (h60 : 60 ≤ f.close.length)
    (hc : ∀ v ∈ f.close, isFin v = true) :
    ∃ q, rsi_bias f = fin q := by
  obtain ⟨r, hr⟩ := rsi_last_fin h60 hc
  rw [rsi_bias, hr, fin_sub_fin, fin_div_fin _ (by norm_num)]
  exact ⟨_, rfl⟩

theorem weighted_score_fin {f : Frame} (hwf : f.wf) (h60 : 60 ≤ f.close.length)
    (hc : ∀ v ∈ f.close, isFin v = true) (hv : ∀ v ∈ f.volume, isFin v = true)
    {c : ℚ} (hlast : ilocNeg f.close 1 = fin c) (hc0 : c ≠ 0)
    (hc10 : ilocNeg f.close 10 ≠ fin 0) :
    ∃ w0, weighted_score f = fin w0 := by
  obtain ⟨qt, hqt⟩ := trend_last_fin h60 hc hlast hc0
  obtain ⟨qm, hqm⟩ := momentum_last_fin h60 hc hc10
  obtain ⟨qh, hqh⟩ := macd_bias_last_fin h60 hc
  obtain ⟨qr, hqr⟩ := rsi_bias_last_fin h60 hc
  obtain ⟨qv, hqv⟩ := volume_last_fin hwf h60 hv
  rw [weighted_score, hqt, hqm, hqh, hqr, hqv]
  rw [fin_mul_fin, fin_mul_fin, fin_mul_fin, fin_mul_fin, fin_mul_fin,
    fin_add_fin, fin_add_fin, fin_add_fin, fin_add_fin]
  exact ⟨_, rfl⟩

/-- C4, amended.  For every frame whose high/low/close/volume values are
all finite, whose last close is positive and whose close ten candles back
is nonzero, any signal `generate_entry_signal` returns satisfies the
ordering invariant: `stop < entry < take_profit` for a long signal,
`take_profit < entry < stop` for a short one.  (Finiteness and the
nonzero momentum denominator rule out the `nan`-score path exhibited by
the counterexample; the quality gate then forces a positive ATR for any
emitted signal.) -/
theorem c4_signal_ordering (m : String) (f : Frame) (s : Signal)
    (hwf : f.wf)
    (hfin : (f.high.all isFin && f.low.all isFin && f.close.all isFin
      && f.volume.all isFin) = true)
    (hclose0 : lt (fin 0) (ilocNeg f.close 1) = true)
    (hc10 : ilocNeg f.close 10 ≠ fin 0)
    (hsig : generate_entry_signal m f = some s) :
    (s.side = "buy" → lt s.stop s.entry = true ∧ lt s.entry s.take_profit = true) ∧
    (s.side = "sell" → lt s.take_profit s.entry = true ∧ lt s.entry s.stop = true) := by
  simp only [Bool.and_eq_true, List.all_eq_true] at hfin
  obtain ⟨⟨⟨hh, hl⟩, hc⟩, hv⟩ := hfin
  by_cases h60 : f.close.length < 60
  · have hs0 : score_market f = fin 0 := by rw [score_market, if_pos h60]
    simp [generate_entry_signal, hs0, FVal.beq] at hsig
  have h60' : 60 ≤ f.close.length := not_lt.mp h60
  obtain ⟨c, hlast⟩ := isFin_exists (hc _ (ilocNeg_mem le_rfl (by omega)))
  have hcpos : 0 < c := by
    rw [hlast] at hclose0
    exact lt_fin_fin.mp hclose0
  obtain ⟨a, hatr⟩ := atr_last_fin hwf h60' hh hl hc
  cases hbeqv : beq (score_market f) (fin 0) with
  | true =>
      simp only [generate_entry_signal, hbeqv] at hsig
      simp at hsig
  | false =>
      have hqone : lt (fin 0) (ilocNeg (atrSeries f) 1) = true := by
        by_contra hqneg
        have hq0 : quality f = 0 := by rw [quality, if_neg hqneg]
        obtain ⟨w0, hw0⟩ :=
          weighted_score_fin hwf h60' hc hv hlast (ne_of_gt hcpos) hc10
        have hs0 : score_market f = fin 0 := by
          rw [score_market, if_neg (not_lt.mpr h60'), hw0, hq0, fin_mul_fin, mul_zero]
        rw [hs0] at hbeqv
        simp [FVal.beq] at hbeqv
      have hapos : 0 < a := by
        rw [hatr] at hqone
        exact lt_fin_fin.mp hqone
      simp only [generate_entry_signal, hbeqv] at hsig
      simp only [Bool.false_eq_true, if_false] at hsig
      by_cases hpos : lt (fin 0) (score_market f) = true
      · rw [if_pos hpos] at hsig
        rw [Option.some_inj] at hsig
        have hside : s.side = "buy" := (congrArg Signal.side hsig).symm
        have hentry : s.entry = ilocNeg f.close 1 := (congrArg Signal.entry hsig).symm
        have hstop : s.stop
            = pymax (sub (ilocNeg f.close 1) (mul (ilocNeg (atrSeries f) 1) (fin 2)))
              (mul (ilocNeg f.close 1) (fin (97 / 100))) :=
          (congrArg Signal.stop hsig).symm
        have htp : s.take_profit
            = add (ilocNeg f.close 1) (mul (ilocNeg (atrSeries f) 1) (fin 3)) :=
          (congrArg Signal.take_profit hsig).symm
        refine ⟨fun _ => ⟨?_, ?_⟩, fun habs => absurd (hside ▸ habs) (by decide)⟩
        · rw [hstop, hentry, hlast, hatr, fin_mul_fin, fin_sub_fin, fin_mul_fin,
            pymax_fin, lt_fin_fin]
          apply max_lt <;> nlinarith
        · rw [hentry, htp, hlast, hatr, fin_mul_fin, fin_add_fin, lt_fin_fin]
          nlinarith
      · rw [if_neg hpos] at hsig
        rw [Option.some_inj] at hsig
        have hside : s.side = "sell" := (congrArg Signal.side hsig).symm
        have hentry : s.entry = ilocNeg f.close 1 := (congrArg Signal.entry hsig).symm
        have hstop : s.stop
            = pymin (add (ilocNeg f.close 1) (mul (ilocNeg (atrSeries f) 1) (fin 2)))
              (mul (ilocNeg f.close 1) (fin (103 / 100))) :=
          (congrArg Signal.stop hsig).symm
        have htp : s.take_profit
            = sub (ilocNeg f.close 1) (mul (ilocNeg (atrSeries f) 1) (fin 3)) :=
          (congrArg Signal.take_profit hsig).symm
        refine ⟨fun habs => absurd (hside ▸ habs) (by decide), fun _ => ⟨?_, ?_⟩⟩
        · rw [htp, hentry, hlast, hatr, fin_mul_fin, fin_sub_fin, lt_fin_fin]
          nlinarith
        · rw [hentry, hstop, hlast, hatr, fin_mul_fin, fin_add_fin, fin_mul_fin,
            pymin_fin, lt_fin_fin]
          apply lt_min <;> nlinarith

set_option maxRecDepth 200000 in
set_option maxHeartbeats 8000000 in
/-- C4, witness: the amended ordering theorem applied to the benign
constant frame, whose short signal (score −0.1) satisfies
`take_profit = 97 < entry = 100 < stop = 102`. -/
theorem c4_witness :
    wFrame.wf ∧
    (wFrame.high.all isFin && wFrame.low.all isFin && wFrame.close.all isFin
      && wFrame.volume.all isFin) = true ∧
    lt (fin 0) (ilocNeg wFrame.close 1) = true ∧
    ilocNeg wFrame.close 10 ≠ fin 0 ∧
    generate_entry_signal "KRW-A" wFrame = some wSignal ∧
    (wSignal.side = "buy" →
      lt wSignal.stop wSignal.entry = true ∧
      lt wSignal.entry wSignal.take_profit = true) ∧
    (wSignal.side = "sell" →
      lt wSignal.take_profit wSignal.entry = true ∧
      lt wSignal.entry wSignal.stop = true) :=
  ⟨by decide, by decide, by decide, by decide, by decide,
   c4_signal_ordering "KRW-A" wFrame wSignal (by decide) (by decide) (by decide)
     (by decide) (by decide)⟩

/-! ### Consistency of the two embeddings

The risk/execution engines are embedded twice: over ℚ for the claims
about them, and over `FVal` for the orchestrator model.  The two agree
on finite inputs. -/

/-- `align_price` and its float variant agree on finite prices. -/
theorem alignPriceF_fin (a : ℚ) : alignPriceF (fin a) = some (fin (align_price a)) := rfl

/-- `position_size` and its float variant agree on finite entry/stop. -/
theorem positionSizeF_fin (L : RiskLimits) (equity a b : ℚ) :
    positionSizeF L equity (fin a) (fin b) = (position_size L equity a b).map fin := by
  have hsub : fabs (sub (fin a) (fin b)) = fin |a - b| := by
    rw [fin_sub_fin]
    rfl
  by_cases hd : |a - b| = 0
  · rw [positionSizeF, position_size, hsub]
    simp [FVal.beq, hd]
  · by_cases ha : a = 0
    · rw [positionSizeF, position_size, hsub]
      simp [FVal.beq, hd, ha]
    · rw [positionSizeF, position_size, hsub]
      simp only [FVal.beq, decide_eq_true_eq, hd, ha, if_false, Option.map_some]
      rw [fin_div_fin _ hd, fin_div_fin _ ha, pymin_fin]
      rfl

end UpbitBot
